import Mathlib

/-!
# Verification of the `comdetect` community-detection engine

Shallow embedding of the C sources (`src/edges.c`, `include/graph.h`,
`include/vector.h`) of the Girvan–Newman community detector, together with
proofs about the embedded operations.

Conventions.

* Node identifiers are nonnegative integers (spec §3: "a node is an arbitrary
  nonnegative integer"), and edge identifiers produced by `resetEdgeIds` are
  the nonnegative values `0 … m−1`, so C `int` cells holding node endpoints and
  edge-list identifiers are modelled as `Nat`.  The graph's half-edge
  `edge_id` array may hold negative cut markers, so it is modelled as
  `List Int`.
* C arrays become `List`s; an out-of-range `List.set` is a no-op and reads use
  `getD`/`[·]?`, making every operation total.  Within the well-formedness
  hypotheses of the theorems the bounds are always respected, matching the
  defined behaviour of the C code.
* Functions of the repository that are declared but whose bodies are not part
  of the sources (`rowCompressEdges`, `cutEdge`, `bfs`, `girvanNewman`, the
  `util.c` helpers `findLargest` and `removeDuplicates`, and the `wqupc.c`
  union-find) are modelled from the spec; each such definition carries a doc
  comment starting with `Modelled from the spec:`.
-/

/-! ## Edge lists (`edges.c`) -/

/-- The `EdgeList` struct of `edges.h`/`edges.c`: three parallel arrays of the
same length, the two endpoint columns `nodes[0]`, `nodes[1]` and the edge-id
column `id`. -/
structure EdgeList where
  nodesI : List Nat
  nodesJ : List Nat
  id     : List Nat
deriving Repr, DecidableEq

/-- The common length of the three parallel arrays (`elist->length`). -/
def EdgeList.length (e : EdgeList) : Nat := e.id.length

/-- Well-formedness: the three parallel arrays really have the common
length (as `newEdgeList` and `copyEdgeList` allocate them). -/
def EdgeList.WF (e : EdgeList) : Prop :=
  e.nodesI.length = e.id.length ∧ e.nodesJ.length = e.id.length

instance (e : EdgeList) : Decidable e.WF := by unfold EdgeList.WF; infer_instance

/-- Column selection: `nodes[0]` is the i column, `nodes[1]` the j column. -/
def EdgeList.col (e : EdgeList) (c : Fin 2) : List Nat :=
  if c = 0 then e.nodesI else e.nodesJ

/-- `resetEdgeIds` (edges.c): `for (i = 0; i < elist->length; i++)
elist->id[i] = i;` — the id array becomes `0, 1, …, length−1`. -/
def resetEdgeIds (e : EdgeList) : EdgeList :=
  { e with id := List.range e.id.length }

/-- The endpoint multiset that `mapNodeIds` (edges.c) collects: first the
whole i column, then the whole j column. -/
def EdgeList.endpoints (e : EdgeList) : List Nat := e.nodesI ++ e.nodesJ

/-! ## Half-edge id array and cut marking

`rowCompressEdges` (declared in graph.h, body outside `src/`) copies the edge
ids of the edge list onto the `edge_id` array of the graph's `2m` half-edges;
`cutEdge` (declared in graph.h) marks a cut edge by overwriting its entry with
the negative of the iteration number. -/

/-- Modelled from the spec: `rowCompressEdges` is not in `src/`; spec §4.6
step 5 says the ids of the undirected edges are copied "into the parallel
`edge_id` array of length `2m` so symmetric half-edges share the same ID".
The exact CSR ordering is irrelevant to sign/zero properties, so the model
lists each edge's id twice, and the ids come from the source's
`resetEdgeIds`. -/
def buildEdgeIds (e : EdgeList) : List Int :=
  (e.id ++ e.id).map Int.ofNat

/-- Modelled from the spec: `cutEdge` (declared graph.h:237, body outside
`src/`) cuts "an edge from the graph by marking it with the negative of the
iteration number in which it was cut".  The C function locates the half-edge
position of `(src, dest)`; the model acts on the position `k` directly. -/
def cutEdgeAt (edge_id : List Int) (k : Nat) (iteration : Nat) : List Int :=
  edge_id.set k (-(iteration : Int))

/-- A sequence of cuts `(position, iteration)` applied in order. -/
def applyCuts (edge_id : List Int) (cuts : List (Nat × Nat)) : List Int :=
  cuts.foldl (fun a c => cutEdgeAt a c.1 c.2) edge_id

lemma applyCuts_cons (edge_id : List Int) (c : Nat × Nat) (rest : List (Nat × Nat)) :
    applyCuts edge_id (c :: rest) = applyCuts (cutEdgeAt edge_id c.1 c.2) rest := rfl

lemma applyCuts_length (edge_id : List Int) (cuts : List (Nat × Nat)) :
    (applyCuts edge_id cuts).length = edge_id.length := by
  induction cuts generalizing edge_id with
  | nil => rfl
  | cons c rest ih =>
      simp only [applyCuts, List.foldl_cons] at *
      rw [ih]
      simp [cutEdgeAt]

lemma applyCuts_getD_neg (edge_id : List Int) (cuts : List (Nat × Nat))
    (hcuts : ∀ c ∈ cuts, c.1 < edge_id.length ∧ 1 ≤ c.2) (k : Nat)
    (hk : k < edge_id.length) :
    (applyCuts edge_id cuts).getD k 0 < 0 ↔
      (edge_id.getD k 0 < 0 ∨ ∃ it, (k, it) ∈ cuts) := by
  induction cuts generalizing edge_id with
  | nil => simp [applyCuts]
  | cons c rest ih =>
      obtain ⟨p, it⟩ := c
      have hc := hcuts (p, it) (List.mem_cons_self _ _)
      have hlen : (cutEdgeAt edge_id p it).length = edge_id.length := by
        simp [cutEdgeAt]
      have hrest : ∀ c ∈ rest, c.1 < (cutEdgeAt edge_id p it).length ∧ 1 ≤ c.2 := by
        intro c hcmem
        rw [hlen]
        exact hcuts c (List.mem_cons_of_mem _ hcmem)
      rw [applyCuts_cons, ih (cutEdgeAt edge_id p it) hrest (hlen ▸ hk)]
      have hget : (cutEdgeAt edge_id p it).getD k 0 =
          if p = k then -(it : Int) else edge_id.getD k 0 := by
        simp only [cutEdgeAt, List.getD, List.getElem?_set]
        rcases Decidable.em (p = k) with h | h
        · simp [h, hk]
        · simp [h]
      rw [hget]
      constructor
      · rintro (h | h)
        · rcases Decidable.em (p = k) with hpk | hpk
          · exact Or.inr ⟨it, by simp [hpk]⟩
          · rw [if_neg hpk] at h
            exact Or.inl h
        · obtain ⟨it', hit'⟩ := h
          exact Or.inr ⟨it', List.mem_cons_of_mem _ hit'⟩
      · rintro (h | ⟨it', hit'⟩)
        · rcases Decidable.em (p = k) with hpk | hpk
          · rw [if_pos hpk]
            omega
          · rw [if_neg hpk]
            exact Or.inl h
        · rcases List.mem_cons.mp hit' with heq | hmem
          · have hk' : k = p := by injection heq
            rw [if_pos hk'.symm]
            left
            have h2 := hc.2
            omega
          · exact Or.inr ⟨it', hmem⟩

/-- The property claimed of the id assignment: every edge gets an id in
`1 … m` and no half-edge entry is zero. -/
def ClaimedIdAssignment (e : EdgeList) : Prop :=
  (∀ x ∈ (resetEdgeIds e).id, 1 ≤ x ∧ x ≤ e.length) ∧
  (∀ y ∈ buildEdgeIds (resetEdgeIds e), y ≠ 0)

instance (e : EdgeList) : Decidable (ClaimedIdAssignment e) := by
  unfold ClaimedIdAssignment; infer_instance

/-- C1 (counterexample): for the single-edge list (5,7) the source's
`resetEdgeIds` assigns the edge the id 0, which is neither in `1 … m` nor a
nonzero half-edge entry: the claimed id assignment fails. -/
theorem claim_c1_counterexample :
    ¬ ClaimedIdAssignment ⟨[5], [7], [0]⟩ := by decide

/-- C1 (amended): at graph construction every undirected edge is assigned a
fresh edge id in the range `0 … m−1` (so the id 0 does occur, and the first
half-edge entry is zero rather than positive); the half-edge entries are
initially all nonnegative, and after any sequence of cuts (iteration numbers
start at 1) an entry is negative exactly when that position was cut and
nonnegative exactly when it is live. -/
theorem claim_c1_amended (e : EdgeList) (cuts : List (Nat × Nat))
    (hcuts : ∀ c ∈ cuts, c.1 < 2 * e.length ∧ 1 ≤ c.2) :
    (resetEdgeIds e).id = List.range e.length ∧
    (resetEdgeIds e).id.Nodup ∧
    (∀ y ∈ buildEdgeIds (resetEdgeIds e), 0 ≤ y) ∧
    (∀ k, k < 2 * e.length →
      ((applyCuts (buildEdgeIds (resetEdgeIds e)) cuts).getD k 0 < 0 ↔
        (∃ it, (k, it) ∈ cuts)) ∧
      (0 ≤ (applyCuts (buildEdgeIds (resetEdgeIds e)) cuts).getD k 0 ↔
        ¬ ∃ it, (k, it) ∈ cuts)) := by
  have hblen : (buildEdgeIds (resetEdgeIds e)).length = 2 * e.length := by
    simp [buildEdgeIds, resetEdgeIds, EdgeList.length, two_mul]
  have hnonneg : ∀ y ∈ buildEdgeIds (resetEdgeIds e), 0 ≤ y := by
    intro y hy
    simp only [buildEdgeIds, List.mem_map] at hy
    obtain ⟨x, _, rfl⟩ := hy
    exact Int.ofNat_nonneg x
  refine ⟨rfl, List.nodup_range _, hnonneg, ?_⟩
  intro k hk
  have hk' : k < (buildEdgeIds (resetEdgeIds e)).length := by omega
  have hcuts' : ∀ c ∈ cuts, c.1 < (buildEdgeIds (resetEdgeIds e)).length ∧ 1 ≤ c.2 := by
    intro c hc
    rw [hblen]
    exact hcuts c hc
  have hinit : ¬ (buildEdgeIds (resetEdgeIds e)).getD k 0 < 0 := by
    have hmem : (buildEdgeIds (resetEdgeIds e)).getD k 0 ∈ buildEdgeIds (resetEdgeIds e) := by
      rw [List.getD_eq_getElem _ _ hk']
      exact List.getElem_mem hk'
    have := hnonneg _ hmem
    omega
  have hmain := applyCuts_getD_neg (buildEdgeIds (resetEdgeIds e)) cuts hcuts' k hk'
  constructor
  · rw [hmain]
    constructor
    · rintro (h | h)
      · exact absurd h hinit
      · exact h
    · exact Or.inr
  · constructor
    · intro hpos hex
      have := hmain.mpr (Or.inr hex)
      omega
    · intro hnex
      by_contra hneg
      push_neg at hneg
      rcases hmain.mp (by omega) with h | h
      · exact hinit h
      · exact hnex h

/-- C1 witness: the amended statement evaluated on the single-edge list
(5,7) with the one half-edge position 1 cut in iteration 1. -/
theorem claim_c1_amended_witness :
    (∀ c ∈ [((1 : Nat), (1 : Nat))], c.1 < 2 * EdgeList.length ⟨[5], [7], [0]⟩ ∧ 1 ≤ c.2) ∧
    ((resetEdgeIds ⟨[5], [7], [0]⟩).id = List.range (EdgeList.length ⟨[5], [7], [0]⟩) ∧
    (resetEdgeIds ⟨[5], [7], [0]⟩).id.Nodup ∧
    (∀ y ∈ buildEdgeIds (resetEdgeIds ⟨[5], [7], [0]⟩), 0 ≤ y) ∧
    (∀ k, k < 2 * EdgeList.length ⟨[5], [7], [0]⟩ →
      ((applyCuts (buildEdgeIds (resetEdgeIds ⟨[5], [7], [0]⟩)) [(1, 1)]).getD k 0 < 0 ↔
        (∃ it, (k, it) ∈ [((1 : Nat), (1 : Nat))])) ∧
      (0 ≤ (applyCuts (buildEdgeIds (resetEdgeIds ⟨[5], [7], [0]⟩)) [(1, 1)]).getD k 0 ↔
        ¬ ∃ it, (k, it) ∈ [((1 : Nat), (1 : Nat))]))) :=
  ⟨by decide, claim_c1_amended ⟨[5], [7], [0]⟩ [(1, 1)] (by decide)⟩

/-! ## Identifier map (`mapNodeIds`, `lookupNodeId`, `addNodeIdToMap`) -/

/-- The key under which `lookupNodeId`/`addNodeIdToMap` file a node id: the C
code stringifies it with `sprintf(node_id_str, "%d", orig_id)`; the model
uses the base-10 digit expansion (`Nat.digits 10`), which carries exactly the
same information as the decimal string. -/
def nodeKey (orig_id : Nat) : List Nat := Nat.digits 10 orig_id

/-- The process-wide `hsearch` table modelled as an association list of
`(key, data)` entries; `hsearch(e, FIND)` returns the entry with the key, or
`NULL` (here `none`). -/
def hsearchFind (tbl : List (List Nat × Nat)) (key : List Nat) : Option Nat :=
  match tbl with
  | [] => none
  | (k, v) :: rest => if k = key then some v else hsearchFind rest key

/-- `addNodeIdToMap` (edges.c): stringify `orig_id` and `ENTER` the pair into
the hash table with `node_id` as data.  `hsearch(e, ENTER)` on an existing
key returns the existing entry without replacing it. -/
def addNodeIdToMap (tbl : List (List Nat × Nat)) (orig_id node_id : Nat) :
    List (List Nat × Nat) :=
  match hsearchFind tbl (nodeKey orig_id) with
  | some _ => tbl
  | none => tbl ++ [(nodeKey orig_id, node_id)]

/-- `lookupNodeId` (edges.c): stringify the original id and `FIND` it;
`none` models the fatal `"unknown node id"` / *UnknownNode* error path. -/
def lookupNodeId (tbl : List (List Nat × Nat)) (orig_id : Nat) : Option Nat :=
  hsearchFind tbl (nodeKey orig_id)

/-- Modelled from the spec: `removeDuplicates` (util.c, not under `src/`) —
the call site in `mapNodeIds` comments "now remove duplicates (which
sorts)" and spec §4.4 says "deduplicate and sort ascending". -/
def removeDuplicates (l : List Nat) : List Nat :=
  l.toFinset.sort (· ≤ ·)

/-- The loop `for (i = 0; i < size; i++) addNodeIdToMap(store, nodes[i], i);`
of `mapNodeIds`, entering the elements of `l` with consecutive internal ids
starting at `i`. -/
def enterNodeIds (tbl : List (List Nat × Nat)) (l : List Nat) (i : Nat) :
    List (List Nat × Nat) :=
  match l with
  | [] => tbl
  | x :: xs => enterNodeIds (addNodeIdToMap tbl x i) xs (i + 1)

/-- Result of `mapNodeIds`: the `*idmap` out-array, the `*num_nodes` count
and the hash-table contents. -/
structure IdmapResult where
  idmap : List Nat
  num_nodes : Nat
  table : List (List Nat × Nat)

/-- `mapNodeIds` (edges.c): append the i column and then the j column into
one array, sort it and remove duplicates, publish the resulting array and its
size, and enter each value into the hash table with its position as the
internal id. -/
def mapNodeIds (e : EdgeList) : IdmapResult :=
  let idmap := removeDuplicates e.endpoints
  { idmap := idmap
    num_nodes := idmap.length
    table := enterNodeIds [] idmap 0 }

/-- `to_external`: indexing into the `idmap` array (spec §4.4: "the reverse
(internal → external) is a simple array"). -/
def toExternal (idmap : List Nat) (i : Nat) : Nat := idmap.getD i 0

lemma nodeKey_injective : Function.Injective nodeKey := by
  intro a b h
  have := congrArg (Nat.ofDigits 10) h
  simpa [nodeKey, Nat.ofDigits_digits] using this

lemma hsearchFind_append (t1 t2 : List (List Nat × Nat)) (key : List Nat) :
    hsearchFind (t1 ++ t2) key =
      match hsearchFind t1 key with
      | some v => some v
      | none => hsearchFind t2 key := by
  induction t1 with
  | nil => simp [hsearchFind]
  | cons p rest ih =>
      obtain ⟨k, v⟩ := p
      by_cases h : k = key
      · simp [hsearchFind, h]
      · simp [hsearchFind, h, ih]

lemma lookup_addNodeIdToMap_ne (tbl : List (List Nat × Nat)) (x y i : Nat)
    (hxy : x ≠ y) :
    lookupNodeId (addNodeIdToMap tbl y i) x = lookupNodeId tbl x := by
  unfold addNodeIdToMap
  cases hsearchFind tbl (nodeKey y) with
  | some v => rfl
  | none =>
      unfold lookupNodeId
      rw [hsearchFind_append]
      cases hfind : hsearchFind tbl (nodeKey x) with
      | some v => rfl
      | none =>
          have hkey : nodeKey y ≠ nodeKey x := fun h => hxy (nodeKey_injective h).symm
          simp [hsearchFind, hkey]

lemma lookup_enterNodeIds_not_mem (l : List Nat) (x : Nat) (hx : x ∉ l)
    (tbl : List (List Nat × Nat)) (i : Nat) :
    lookupNodeId (enterNodeIds tbl l i) x = lookupNodeId tbl x := by
  induction l generalizing tbl i with
  | nil => rfl
  | cons y ys ih =>
      have hxy : x ≠ y := fun h => hx (h ▸ List.mem_cons_self _ _)
      have hxys : x ∉ ys := fun h => hx (List.mem_cons_of_mem _ h)
      show lookupNodeId (enterNodeIds (addNodeIdToMap tbl y i) ys (i + 1)) x = _
      rw [ih hxys, lookup_addNodeIdToMap_ne tbl x y i hxy]

lemma lookup_enterNodeIds_mem (l : List Nat) (hl : l.Nodup) (x : Nat) (hx : x ∈ l)
    (tbl : List (List Nat × Nat)) (hfresh : lookupNodeId tbl x = none) (i : Nat) :
    lookupNodeId (enterNodeIds tbl l i) x = some (i + l.indexOf x) := by
  induction l generalizing tbl i with
  | nil => cases hx
  | cons y ys ih =>
      by_cases hxy : x = y
      · subst hxy
        have hxys : x ∉ ys := (List.nodup_cons.mp hl).1
        show lookupNodeId (enterNodeIds (addNodeIdToMap tbl x i) ys (i + 1)) x = _
        rw [lookup_enterNodeIds_not_mem ys x hxys]
        unfold addNodeIdToMap
        rw [show hsearchFind tbl (nodeKey x) = none from hfresh]
        unfold lookupNodeId
        rw [hsearchFind_append, show hsearchFind tbl (nodeKey x) = none from hfresh]
        simp [hsearchFind, List.indexOf_cons_self]
      · have hxys : x ∈ ys := by
          rcases List.mem_cons.mp hx with h | h
          · exact absurd h hxy
          · exact h
        show lookupNodeId (enterNodeIds (addNodeIdToMap tbl y i) ys (i + 1)) x = _
        have hfresh' : lookupNodeId (addNodeIdToMap tbl y i) x = none := by
          rw [lookup_addNodeIdToMap_ne tbl x y i hxy]; exact hfresh
        rw [ih (List.nodup_cons.mp hl).2 hxys _ hfresh']
        have hb : (y == x) = false := beq_eq_false_iff_ne.mpr (Ne.symm hxy)
        have hidx : List.indexOf x (y :: ys) = List.indexOf x ys + 1 := by
          simp [List.indexOf_cons, hb]
        rw [hidx]
        exact congrArg some (by omega)

lemma removeDuplicates_sorted (l : List Nat) :
    (removeDuplicates l).Sorted (· < ·) :=
  Finset.sort_sorted_lt _

lemma removeDuplicates_mem (l : List Nat) (x : Nat) :
    x ∈ removeDuplicates l ↔ x ∈ l := by
  unfold removeDuplicates
  rw [Finset.mem_sort, List.mem_toFinset]

lemma removeDuplicates_length (l : List Nat) :
    (removeDuplicates l).length = l.dedup.length := by
  unfold removeDuplicates
  rw [Finset.length_sort, List.card_toFinset]

/-- C4: `mapNodeIds` produces the distinct endpoint values of the edge list
in strictly ascending order, `num_nodes` is the number of distinct endpoints,
and each external id is hashed to the internal index equal to its position in
the sorted deduplicated array. -/
theorem claim_c4_mapNodeIds (e : EdgeList) :
    (mapNodeIds e).idmap.Sorted (· < ·) ∧
    (∀ x, x ∈ (mapNodeIds e).idmap ↔ x ∈ e.endpoints) ∧
    (mapNodeIds e).num_nodes = e.endpoints.dedup.length ∧
    (∀ x ∈ e.endpoints,
      lookupNodeId (mapNodeIds e).table x =
        some ((mapNodeIds e).idmap.indexOf x)) := by
  refine ⟨removeDuplicates_sorted _, fun x => removeDuplicates_mem _ x,
    removeDuplicates_length _, ?_⟩
  intro x hx
  have hmem : x ∈ removeDuplicates e.endpoints := (removeDuplicates_mem _ x).mpr hx
  have hnodup : (removeDuplicates e.endpoints).Nodup :=
    (removeDuplicates_sorted e.endpoints).nodup
  have := lookup_enterNodeIds_mem (removeDuplicates e.endpoints) hnodup x hmem [] rfl 0
  simpa [mapNodeIds] using this

/-- C5: round-trip — for every external id `x` appearing as an endpoint,
translating to the internal index with the hash table and back through the
`idmap` array recovers `x`. -/
theorem claim_c5_roundtrip (e : EdgeList) (x : Nat) (hx : x ∈ e.endpoints) :
    toExternal (mapNodeIds e).idmap
      ((lookupNodeId (mapNodeIds e).table x).getD 0) = x := by
  obtain ⟨-, hmem, -, hlook⟩ := claim_c4_mapNodeIds e
  rw [hlook x hx]
  have hmem' : x ∈ (mapNodeIds e).idmap := (hmem x).mpr hx
  have hlt : (mapNodeIds e).idmap.indexOf x < (mapNodeIds e).idmap.length :=
    List.indexOf_lt_length.mpr hmem'
  simp only [Option.getD_some, toExternal]
  rw [List.getD_eq_getElem _ _ hlt]
  exact List.getElem_indexOf hlt

/-- C5 witness: the round-trip evaluated on the edge list {(10,20),(20,5)}
at the endpoint 20. -/
theorem claim_c5_roundtrip_witness :
    (20 ∈ EdgeList.endpoints ⟨[10, 20], [20, 5], [0, 1]⟩) ∧
    toExternal (mapNodeIds ⟨[10, 20], [20, 5], [0, 1]⟩).idmap
      ((lookupNodeId (mapNodeIds ⟨[10, 20], [20, 5], [0, 1]⟩).table 20).getD 0) = 20 :=
  ⟨by decide, claim_c5_roundtrip ⟨[10, 20], [20, 5], [0, 1]⟩ 20 (by decide)⟩

/-- C7: looking up an external id that was not among the input endpoints
fails with the *UnknownNode* error (`none`), returning no internal index. -/
theorem claim_c7_unknownNode (e : EdgeList) (x : Nat) (hx : x ∉ e.endpoints) :
    lookupNodeId (mapNodeIds e).table x = none := by
  have hnm : x ∉ removeDuplicates e.endpoints := fun h =>
    hx ((removeDuplicates_mem _ x).mp h)
  have := lookup_enterNodeIds_not_mem (removeDuplicates e.endpoints) x hnm [] 0
  simpa [mapNodeIds] using this

/-- C7 witness: looking up the absent id 99 on the edge list
{(10,20),(20,5)} fails. -/
theorem claim_c7_unknownNode_witness :
    (99 ∉ EdgeList.endpoints ⟨[10, 20], [20, 5], [0, 1]⟩) ∧
    lookupNodeId (mapNodeIds ⟨[10, 20], [20, 5], [0, 1]⟩).table 99 = none :=
  ⟨by decide, claim_c7_unknownNode ⟨[10, 20], [20, 5], [0, 1]⟩ 99 (by decide)⟩

/-- C10: for external ids of at most 9 decimal digits (0 ≤ x ≤ 999999999)
an `addNodeIdToMap` under a fresh key followed by `lookupNodeId` returns the
entered internal id, the stringified key together with its terminator fits
the 10-byte `node_id_str`/key buffers, and 9 decimal digits is exactly the
bound the 10-byte buffer imposes. -/
theorem claim_c10_keyBuffer (tbl : List (List Nat × Nat)) (x i : Nat)
    (hx : x ≤ 999999999) (hfresh : lookupNodeId tbl x = none) :
    lookupNodeId (addNodeIdToMap tbl x i) x = some i ∧
    (nodeKey x).length + 1 ≤ 10 ∧
    (∀ y : Nat, (nodeKey y).length + 1 ≤ 10 ↔ y ≤ 999999999) := by
  have hlen : ∀ y : Nat, (nodeKey y).length + 1 ≤ 10 ↔ y ≤ 999999999 := by
    intro y
    constructor
    · intro h
      have hpow : y < 10 ^ (Nat.digits 10 y).length :=
        Nat.lt_base_pow_length_digits (by norm_num)
      have hle : (10 : Nat) ^ (Nat.digits 10 y).length ≤ 10 ^ 9 :=
        Nat.pow_le_pow_right (by norm_num) (by simpa [nodeKey] using h)
      have hfin : y < 10 ^ 9 := lt_of_lt_of_le hpow hle
      omega
    · intro h
      by_cases hy : y = 0
      · simp [nodeKey, hy]
      · have hlog : Nat.log 10 y < 9 :=
          Nat.log_lt_of_lt_pow hy (by omega)
        have := Nat.digits_len 10 y (by norm_num) hy
        simp only [nodeKey]
        omega
  refine ⟨?_, (hlen x).mpr hx, hlen⟩
  unfold addNodeIdToMap
  rw [show hsearchFind tbl (nodeKey x) = none from hfresh]
  unfold lookupNodeId
  rw [hsearchFind_append, show hsearchFind tbl (nodeKey x) = none from hfresh]
  simp [hsearchFind]

/-- C10 witness: entering id 42 with internal index 7 into the empty table
and looking it up. -/
theorem claim_c10_keyBuffer_witness :
    ((42 : Nat) ≤ 999999999 ∧ lookupNodeId [] 42 = none) ∧
    (lookupNodeId (addNodeIdToMap [] 42 7) 42 = some 7 ∧
    (nodeKey 42).length + 1 ≤ 10 ∧
    (∀ y : Nat, (nodeKey y).length + 1 ≤ 10 ↔ y ≤ 999999999)) :=
  ⟨⟨by decide, rfl⟩, claim_c10_keyBuffer [] 42 7 (by decide) rfl⟩

/-! ## Radix sort (`sortEdges`, `findLargestEndpoint`) -/

/-- Modelled from the spec: `findLargest` (util.c, not under `src/`);
spec §4.3 says "`findLargestEndpoint(col)` returns `max(col[])`". -/
def findLargest (l : List Nat) : Nat := l.foldl max 0

/-- `findLargestEndpoint` (edges.c): the largest value in the chosen
endpoint column. -/
def findLargestEndpoint (e : EdgeList) (col : Fin 2) : Nat :=
  findLargest (e.col col)

/-- The `(u, v, id)` view of the three parallel arrays, zipped into triples
(the C loops always index the three arrays at the same position, so a
position of the edge list is exactly one such triple). -/
def EdgeList.uvid (e : EdgeList) : List (Nat × Nat × Nat) :=
  List.zipWith3 (fun a b c => (a, b, c)) e.nodesI e.nodesJ e.id

/-- The triples rearranged for a sort on column `col`: the sort column
`nodes[col]` first, then the other column `nodes[1-col]`, then `id` —
mirroring the three lockstep assignments of the copy loops of `sortEdges`. -/
def keyedTriples (e : EdgeList) (col : Fin 2) : List (Nat × Nat × Nat) :=
  List.zipWith3 (fun a b c => (a, b, c)) (e.col col) (e.col (1 - col)) e.id

/-- One bucket pass of `sortEdges` for the current significant digit.  The C
code counts, for each digit value `0 … 9`, the triples whose current digit
`(nodes[col][i] / sig_digit) % 10` equals it, accumulates the counts into
end-of-bucket offsets, and then walks the input from the back, writing each
triple to the next free slot from the back of its bucket
(`loc = --bucket[digit]; semi_sorted[loc] = elist[i]`).  Bucket `b` of
`semi_sorted` therefore holds, in input order, exactly the input triples
with current digit `b`, and the buckets are laid out in increasing digit
order — which is what this definition states. -/
def radixPass (l : List (Nat × Nat × Nat)) (sig : Nat) : List (Nat × Nat × Nat) :=
  (List.range 10).flatMap (fun b => l.filter (fun t => t.1 / sig % 10 == b))

/-- The `while (largest / sig_digit > 0)` loop of `sortEdges`, starting at
`sig_digit = 1` and multiplying by the base 10 after each pass; the second
component counts the passes performed. -/
def radixGo (l : List (Nat × Nat × Nat)) (largest sig : Nat) :
    List (Nat × Nat × Nat) × Nat :=
  if h : largest / sig > 0 then
    let r := radixGo (radixPass l sig) largest (sig * 10)
    (r.1, r.2 + 1)
  else (l, 0)
termination_by largest / sig
decreasing_by
  simp only [gt_iff_lt] at h
  rw [show largest / (sig * 10) = largest / sig / 10 from
    (Nat.div_div_eq_div_mul _ _ _).symm]
  exact Nat.div_lt_self h (by norm_num)

/-- `sortEdges` (edges.c): least-significant-digit radix sort of the edge
triples by the chosen column, the sorted triples written back into the three
parallel arrays. -/
def sortEdges (e : EdgeList) (col : Fin 2) : EdgeList :=
  let sorted := (radixGo (keyedTriples e col) (findLargestEndpoint e col) 1).1
  if col = 0 then
    ⟨sorted.map (·.1), sorted.map (·.2.1), sorted.map (·.2.2)⟩
  else
    ⟨sorted.map (·.2.1), sorted.map (·.1), sorted.map (·.2.2)⟩

/-- The key by which a `(u, v, id)` triple is sorted when sorting on
column `col`. -/
def keyOf (col : Fin 2) (t : Nat × Nat × Nat) : Nat :=
  if col = 0 then t.1 else t.2.1

/-- Swapping the two endpoint components of a triple. -/
def swap3 (t : Nat × Nat × Nat) : Nat × Nat × Nat := (t.2.1, t.1, t.2.2)

lemma swap3_swap3 (t : Nat × Nat × Nat) : swap3 (swap3 t) = t := rfl

lemma foldl_max_init_le {α : Type} [LinearOrder α] (l : List α) :
    ∀ a : α, a ≤ l.foldl max a := by
  induction l with
  | nil => intro a; exact le_refl a
  | cons b l ih =>
      intro a
      exact le_trans (le_max_left a b) (ih (max a b))

lemma mem_le_foldl_max {α : Type} [LinearOrder α] (l : List α) :
    ∀ (a x : α), x ∈ l → x ≤ l.foldl max a := by
  induction l with
  | nil => intro a x hx; cases hx
  | cons b l ih =>
      intro a x hx
      rcases List.mem_cons.mp hx with rfl | hx
      · exact le_trans (le_max_right a x) (foldl_max_init_le l (max a x))
      · exact ih (max a b) x hx

lemma foldl_max_mem {α : Type} [LinearOrder α] (l : List α) :
    ∀ a : α, l.foldl max a = a ∨ l.foldl max a ∈ l := by
  induction l with
  | nil => intro a; exact Or.inl rfl
  | cons b l ih =>
      intro a
      rcases ih (max a b) with h | h
      · rcases max_choice a b with hm | hm
        · exact Or.inl (by rw [List.foldl_cons, h, hm])
        · exact Or.inr (by rw [List.foldl_cons, h, hm]; exact List.mem_cons_self _ _)
      · exact Or.inr (List.mem_cons_of_mem _ h)

lemma findLargest_mem (l : List Nat) (hl : l ≠ []) : findLargest l ∈ l := by
  rcases foldl_max_mem l 0 with h | h
  · cases l with
    | nil => exact absurd rfl hl
    | cons b l =>
        have hb : b ≤ List.foldl max 0 (b :: l) :=
          mem_le_foldl_max _ 0 b (List.mem_cons_self _ _)
        have hb0 : b = 0 := by rw [h] at hb; omega
        show List.foldl max 0 (b :: l) ∈ b :: l
        rw [h, ← hb0]
        exact List.mem_cons_self _ _
  · exact h

lemma findLargest_le (l : List Nat) (x : Nat) (hx : x ∈ l) : x ≤ findLargest l :=
  mem_le_foldl_max l 0 x hx

lemma flatMap_range_ite_single {α : Type} (L : List α) :
    ∀ (n d : Nat), d < n →
      (List.range n).flatMap (fun b => if b = d then L else []) = L := by
  intro n
  induction n with
  | zero => intro d hd; omega
  | succ n ih =>
      intro d hd
      rw [List.range_succ, List.flatMap_append]
      by_cases hdn : d = n
      · subst hdn
        have h1 : (List.range d).flatMap (fun b => if b = d then L else []) = [] :=
          List.flatMap_eq_nil_iff.mpr (fun b hb => by
            have hbd : b < d := List.mem_range.mp hb
            simp [Nat.ne_of_lt hbd])
        rw [h1]
        simp
      · have hd' : d < n := by omega
        rw [ih d hd']
        simp [Ne.symm hdn]

lemma flatMap_range_filter_perm (l : List (Nat × Nat × Nat))
    (p : (Nat × Nat × Nat) → Nat) :
    ∀ n : Nat, ((List.range n).flatMap (fun b => l.filter (fun t => p t == b))).Perm
      (l.filter (fun t => decide (p t < n))) := by
  intro n
  induction n with
  | zero => simp
  | succ n ih =>
      rw [List.range_succ, List.flatMap_append]
      have hstep : (l.filter (fun t => p t == n) ++
          l.filter (fun t => decide (p t < n))).Perm
          (l.filter (fun t => decide (p t < n + 1))) := by
        have hbase := List.filter_append_perm (fun t => p t == n)
          (l.filter (fun t => decide (p t < n + 1)))
        rw [List.filter_filter, List.filter_filter] at hbase
        have h1 : ∀ t ∈ l, ((p t == n) && decide (p t < n + 1)) = (p t == n) := by
          intro t _
          by_cases h : p t = n <;> simp [h]
        have h2 : ∀ t ∈ l, ((!(p t == n)) && decide (p t < n + 1)) =
            decide (p t < n) := by
          intro t _
          by_cases h : p t = n
          · simp [h]
          · by_cases h3 : p t < n + 1
            · have h4 : p t < n := by omega
              simp [h, h3, h4]
            · have h4 : ¬ p t < n := by omega
              simp [h, h3, h4]
        rw [List.filter_congr h1, List.filter_congr h2] at hbase
        exact hbase
      have hsingle : [n].flatMap (fun b => l.filter (fun t => p t == b)) =
          l.filter (fun t => p t == n) := by
        simp
      rw [hsingle]
      exact ((ih.append_right _).trans List.perm_append_comm).trans hstep

lemma radixPass_perm (l : List (Nat × Nat × Nat)) (sig : Nat) :
    (radixPass l sig).Perm l := by
  have h := flatMap_range_filter_perm l (fun t => t.1 / sig % 10) 10
  have heq : l.filter (fun t => decide (t.1 / sig % 10 < 10)) = l := by
    apply List.filter_eq_self.mpr
    intro a _
    simp [Nat.mod_lt _ (by norm_num : (0:Nat) < 10)]
  rw [heq] at h
  rw [radixPass]
  exact h

lemma filter_flatMap {α β : Type} (l : List α) (f : α → List β) (p : β → Bool) :
    (l.flatMap f).filter p = l.flatMap (fun a => (f a).filter p) := by
  induction l with
  | nil => rfl
  | cons a l ih => simp [List.flatMap_cons, List.filter_append, ih]

lemma radixPass_filter_key (l : List (Nat × Nat × Nat)) (sig k : Nat) :
    (radixPass l sig).filter (fun t => t.1 == k) = l.filter (fun t => t.1 == k) := by
  rw [radixPass, filter_flatMap]
  have hcong : ∀ b ∈ List.range 10,
      (l.filter (fun t => t.1 / sig % 10 == b)).filter (fun t => t.1 == k) =
        if b = k / sig % 10 then l.filter (fun t => t.1 == k) else [] := by
    intro b _
    rw [List.filter_filter]
    by_cases hbd : b = k / sig % 10
    · subst hbd
      rw [if_pos rfl]
      apply List.filter_congr
      intro t _
      by_cases ht : t.1 = k
      · simp [ht]
      · simp [ht]
    · rw [if_neg hbd, List.filter_eq_nil_iff]
      intro t _
      by_cases ht : t.1 = k
      · simp only [ht, beq_self_eq_true, Bool.true_and]
        simp only [beq_iff_eq]
        intro hcontra
        exact hbd hcontra.symm
      · simp [ht]
  calc (List.range 10).flatMap
        (fun b => (l.filter (fun t => t.1 / sig % 10 == b)).filter (fun t => t.1 == k))
      = (List.range 10).flatMap
        (fun b => if b = k / sig % 10 then l.filter (fun t => t.1 == k) else []) := by
        rw [List.flatMap_def, List.flatMap_def, List.map_congr_left hcong]
    _ = l.filter (fun t => t.1 == k) :=
        flatMap_range_ite_single _ 10 _ (Nat.mod_lt _ (by norm_num))

lemma radixPass_pairwise (l : List (Nat × Nat × Nat)) (sig : Nat) (hsig : 0 < sig)
    (h : l.Pairwise (fun s t => s.1 % sig ≤ t.1 % sig)) :
    (radixPass l sig).Pairwise (fun s t => s.1 % (sig * 10) ≤ t.1 % (sig * 10)) := by
  rw [radixPass, List.flatMap_def, List.pairwise_flatten]
  constructor
  · intro l' hl'
    obtain ⟨b, _, rfl⟩ := List.mem_map.mp hl'
    have hp : (l.filter (fun t => t.1 / sig % 10 == b)).Pairwise
        (fun s t => s.1 % sig ≤ t.1 % sig) :=
      List.Pairwise.sublist (List.filter_sublist l) h
    refine hp.imp_of_mem ?_
    intro s t hs ht hle
    have hds : s.1 / sig % 10 = b := by simpa using (List.mem_filter.mp hs).2
    have hdt : t.1 / sig % 10 = b := by simpa using (List.mem_filter.mp ht).2
    rw [Nat.mod_mul, Nat.mod_mul, hds, hdt]
    omega
  · rw [List.pairwise_map]
    refine (List.pairwise_lt_range 10).imp_of_mem ?_
    intro b1 b2 _ _ hlt x hx y hy
    have hdx : x.1 / sig % 10 = b1 := by simpa using (List.mem_filter.mp hx).2
    have hdy : y.1 / sig % 10 = b2 := by simpa using (List.mem_filter.mp hy).2
    have hxm : x.1 % sig < sig := Nat.mod_lt _ hsig
    rw [Nat.mod_mul, Nat.mod_mul, hdx, hdy]
    have h1 : sig * (b1 + 1) ≤ sig * b2 := Nat.mul_le_mul_left _ (by omega)
    have h2 : sig * (b1 + 1) = sig * b1 + sig := by ring
    omega

lemma radixGo_perm (l : List (Nat × Nat × Nat)) (largest sig : Nat) :
    ((radixGo l largest sig).1).Perm l := by
  induction l, largest, sig using radixGo.induct with
  | case1 l largest sig h ih =>
      rw [radixGo, dif_pos h]
      exact ih.trans (radixPass_perm l sig)
  | case2 l largest sig h =>
      rw [radixGo, dif_neg h]

lemma radixGo_filter_key (l : List (Nat × Nat × Nat)) (largest sig : Nat) :
    ∀ k : Nat, ((radixGo l largest sig).1).filter (fun t => t.1 == k) =
      l.filter (fun t => t.1 == k) := by
  induction l, largest, sig using radixGo.induct with
  | case1 l largest sig h ih =>
      intro k
      rw [radixGo, dif_pos h]
      show ((radixGo (radixPass l sig) largest (sig * 10)).1).filter _ = _
      rw [ih k, radixPass_filter_key]
  | case2 l largest sig h =>
      intro k
      rw [radixGo, dif_neg h]

lemma radixGo_sorted (l : List (Nat × Nat × Nat)) (largest sig : Nat) :
    0 < sig →
    l.Pairwise (fun s t => s.1 % sig ≤ t.1 % sig) →
    (∀ t ∈ l, t.1 ≤ largest) →
    ((radixGo l largest sig).1).Pairwise (fun s t => s.1 ≤ t.1) := by
  induction l, largest, sig using radixGo.induct with
  | case1 l largest sig h ih =>
      intro hsig hp hb
      rw [radixGo, dif_pos h]
      show ((radixGo (radixPass l sig) largest (sig * 10)).1).Pairwise _
      refine ih (by positivity) (radixPass_pairwise l sig hsig hp) ?_
      intro t ht
      exact hb t ((radixPass_perm l sig).mem_iff.mp ht)
  | case2 l largest sig h =>
      intro hsig hp hb
      rw [radixGo, dif_neg h]
      have hlt : largest < sig :=
        (Nat.div_eq_zero_iff hsig).mp (Nat.le_zero.mp (Nat.not_lt.mp h))
      refine hp.imp_of_mem ?_
      intro s t hs ht hle
      rwa [Nat.mod_eq_of_lt (lt_of_le_of_lt (hb s hs) hlt),
        Nat.mod_eq_of_lt (lt_of_le_of_lt (hb t ht) hlt)] at hle

lemma radixGo_passes (l : List (Nat × Nat × Nat)) (largest sig : Nat) :
    (radixGo l largest sig).2 = (Nat.digits 10 (largest / sig)).length := by
  induction l, largest, sig using radixGo.induct with
  | case1 l largest sig h ih =>
      rw [radixGo, dif_pos h]
      show (radixGo (radixPass l sig) largest (sig * 10)).2 + 1 = _
      rw [ih, Nat.digits_def' (by norm_num : (1:Nat) < 10) h]
      simp only [List.length_cons]
      rw [Nat.div_div_eq_div_mul]
  | case2 l largest sig h =>
      rw [radixGo, dif_neg h]
      have h0 : largest / sig = 0 := Nat.le_zero.mp (Nat.not_lt.mp h)
      rw [h0]
      simp

lemma pairwise_mod_one (l : List (Nat × Nat × Nat)) :
    l.Pairwise (fun s t => s.1 % 1 ≤ t.1 % 1) := by
  induction l with
  | nil => exact List.Pairwise.nil
  | cons a l ih => exact List.Pairwise.cons (fun b _ => by simp [Nat.mod_one]) ih

lemma zipWith3_proj (l : List (Nat × Nat × Nat)) :
    List.zipWith3 (fun a b c => (a, b, c)) (l.map (·.1)) (l.map (·.2.1))
      (l.map (·.2.2)) = l := by
  induction l with
  | nil => rfl
  | cons t l ih =>
      show (t.1, t.2.1, t.2.2) :: _ = t :: l
      rw [ih]

lemma zipWith3_swap (as : List Nat) :
    ∀ (bs cs : List Nat),
      List.zipWith3 (fun a b c => (a, b, c)) bs as cs =
        (List.zipWith3 (fun a b c => (a, b, c)) as bs cs).map swap3 := by
  induction as with
  | nil => intro bs cs; cases bs <;> cases cs <;> rfl
  | cons a as ih =>
      intro bs cs
      cases bs with
      | nil => rfl
      | cons b bs =>
          cases cs with
          | nil => rfl
          | cons c cs =>
              show (b, a, c) :: _ = swap3 (a, b, c) :: _
              rw [ih bs cs]
              rfl

lemma zipWith3_fst_mem (as : List Nat) :
    ∀ (bs cs : List Nat) (t : Nat × Nat × Nat),
      t ∈ List.zipWith3 (fun a b c => (a, b, c)) as bs cs → t.1 ∈ as := by
  induction as with
  | nil => intro bs cs t ht; cases ht
  | cons a as ih =>
      intro bs cs t ht
      cases bs with
      | nil => cases ht
      | cons b bs =>
          cases cs with
          | nil => cases ht
          | cons c cs =>
              rcases List.mem_cons.mp ht with rfl | h
              · exact List.mem_cons_self _ _
              · exact List.mem_cons_of_mem _ (ih bs cs t h)

lemma keyedTriples_zero (e : EdgeList) : keyedTriples e 0 = e.uvid := rfl

lemma keyedTriples_one (e : EdgeList) : keyedTriples e 1 = e.uvid.map swap3 := by
  show List.zipWith3 _ e.nodesJ e.nodesI e.id = _
  rw [zipWith3_swap]
  rfl

lemma keyedTriples_key_le (e : EdgeList) (col : Fin 2) :
    ∀ t ∈ keyedTriples e col, t.1 ≤ findLargestEndpoint e col := by
  intro t ht
  exact findLargest_le _ _ (zipWith3_fst_mem _ _ _ t ht)

lemma keyOf_zero (t : Nat × Nat × Nat) : keyOf 0 t = t.1 := rfl

lemma keyOf_one (t : Nat × Nat × Nat) : keyOf 1 t = t.2.1 := rfl

lemma sortEdges_uvid_zero (e : EdgeList) :
    (sortEdges e 0).uvid =
      (radixGo (keyedTriples e 0) (findLargestEndpoint e 0) 1).1 :=
  zipWith3_proj _

lemma sortEdges_uvid_one (e : EdgeList) :
    (sortEdges e 1).uvid =
      ((radixGo (keyedTriples e 1) (findLargestEndpoint e 1) 1).1).map swap3 := by
  show List.zipWith3 (fun a b c => (a, b, c))
    (((radixGo (keyedTriples e 1) (findLargestEndpoint e 1) 1).1).map (·.2.1))
    (((radixGo (keyedTriples e 1) (findLargestEndpoint e 1) 1).1).map (·.1))
    (((radixGo (keyedTriples e 1) (findLargestEndpoint e 1) 1).1).map (·.2.2)) = _
  rw [zipWith3_swap, zipWith3_proj]

lemma radixGo_key_sorted (e : EdgeList) (col : Fin 2) :
    ((radixGo (keyedTriples e col) (findLargestEndpoint e col) 1).1).Pairwise
      (fun s t => s.1 ≤ t.1) :=
  radixGo_sorted _ _ 1 one_pos (pairwise_mod_one _) (keyedTriples_key_le e col)

lemma sortEdges_uvid_perm (e : EdgeList) (col : Fin 2) :
    ((sortEdges e col).uvid).Perm e.uvid := by
  have hcol : col = 0 ∨ col = 1 := by omega
  rcases hcol with rfl | rfl
  · rw [sortEdges_uvid_zero, ← keyedTriples_zero]
    exact radixGo_perm _ _ _
  · rw [sortEdges_uvid_one, keyedTriples_one]
    have h := (radixGo_perm (e.uvid.map swap3) (findLargestEndpoint e 1) 1).map swap3
    rw [List.map_map] at h
    have hid : e.uvid.map (swap3 ∘ swap3) = e.uvid := by
      rw [show swap3 ∘ swap3 = id from funext swap3_swap3, List.map_id]
    rwa [hid] at h

/-- C3: `sortEdges` rearranges the `(u, v, id)` triples of the edge list so
that the chosen column is non-decreasing, the sort is stable (triples with
equal keys keep their original relative order, expressed by filter equality
at every key), and the id column and non-sort column are carried along with
the sort column (every output triple is an input triple).  Endpoint entries
are nonnegative by the `Nat` embedding. -/
theorem claim_c3_sortEdges (e : EdgeList) (col : Fin 2) :
    (sortEdges e col).uvid.Pairwise (fun s t => keyOf col s ≤ keyOf col t) ∧
    (∀ k : Nat, (sortEdges e col).uvid.filter (fun t => keyOf col t == k) =
      e.uvid.filter (fun t => keyOf col t == k)) ∧
    (∀ t ∈ (sortEdges e col).uvid, t ∈ e.uvid) := by
  refine ⟨?_, ?_, fun t ht => (sortEdges_uvid_perm e col).mem_iff.mp ht⟩
  · have hcol : col = 0 ∨ col = 1 := by omega
    rcases hcol with rfl | rfl
    · rw [sortEdges_uvid_zero]
      exact radixGo_key_sorted e 0
    · rw [sortEdges_uvid_one, List.pairwise_map]
      exact radixGo_key_sorted e 1
  · intro k
    have hcol : col = 0 ∨ col = 1 := by omega
    rcases hcol with rfl | rfl
    · rw [sortEdges_uvid_zero]
      have h := radixGo_filter_key (keyedTriples e 0) (findLargestEndpoint e 0) 1 k
      rw [keyedTriples_zero] at h
      exact h
    · rw [sortEdges_uvid_one, List.filter_map]
      have hp1 : ((fun t => keyOf 1 t == k) ∘ swap3) =
        (fun t : Nat × Nat × Nat => t.1 == k) := rfl
      rw [hp1, radixGo_filter_key, keyedTriples_one, List.filter_map, List.map_map]
      have hp2 : ((fun t : Nat × Nat × Nat => t.1 == k) ∘ swap3) =
        (fun t : Nat × Nat × Nat => keyOf 1 t == k) := rfl
      rw [hp2, show swap3 ∘ swap3 = id from funext swap3_swap3, List.map_id]

/-- C9: `sortEdges` preserves the multiset of `(u, v, id)` triples — the
output triples are a permutation of the input triples, no triple added, lost
or torn apart across the three parallel arrays. -/
theorem claim_c9_permutation (e : EdgeList) (col : Fin 2) :
    ((sortEdges e col).uvid).Perm e.uvid :=
  sortEdges_uvid_perm e col

/-- C8: for a non-empty edge list, `findLargestEndpoint` returns the maximum
value stored in the chosen column, and the radix loop of `sortEdges`
performs exactly as many passes as that maximum has base-10 digits (the
digit expansion of 0 being empty). -/
theorem claim_c8_findLargest (e : EdgeList) (col : Fin 2) (hne : e.col col ≠ []) :
    (findLargestEndpoint e col ∈ e.col col ∧
      ∀ x ∈ e.col col, x ≤ findLargestEndpoint e col) ∧
    (radixGo (keyedTriples e col) (findLargestEndpoint e col) 1).2 =
      (Nat.digits 10 (findLargestEndpoint e col)).length := by
  refine ⟨⟨findLargest_mem _ hne, fun x hx => findLargest_le _ x hx⟩, ?_⟩
  rw [radixGo_passes, Nat.div_one]

/-- C8 witness: the edge list {(12,4),(3,5)} sorted on column 0 has largest
endpoint 12 and performs two radix passes. -/
theorem claim_c8_findLargest_witness :
    (EdgeList.col ⟨[12, 3], [4, 5], [0, 1]⟩ 0 ≠ []) ∧
    ((findLargestEndpoint ⟨[12, 3], [4, 5], [0, 1]⟩ 0 ∈
        EdgeList.col ⟨[12, 3], [4, 5], [0, 1]⟩ 0 ∧
      ∀ x ∈ EdgeList.col ⟨[12, 3], [4, 5], [0, 1]⟩ 0,
        x ≤ findLargestEndpoint ⟨[12, 3], [4, 5], [0, 1]⟩ 0) ∧
    (radixGo (keyedTriples ⟨[12, 3], [4, 5], [0, 1]⟩ 0)
        (findLargestEndpoint ⟨[12, 3], [4, 5], [0, 1]⟩ 0) 1).2 =
      (Nat.digits 10 (findLargestEndpoint ⟨[12, 3], [4, 5], [0, 1]⟩ 0)).length) :=
  ⟨by decide, claim_c8_findLargest ⟨[12, 3], [4, 5], [0, 1]⟩ 0 (by decide)⟩

/-! ## Girvan–Newman driver

`girvanNewman` (declared graph.h:226), `labelCommunities`, and the `wqupc.c`
union-find are not under `src/`; they are modelled from spec §4.5 and §4.9. -/

/-- Modelled from the spec: the `wqupc.c` weighted quick-union state —
parent pointers (`id`) and subtree sizes.  Path compression only changes
performance, not the roots, and is omitted. -/
structure WQUPC where
  id : List Nat
  sz : List Nat

/-- Modelled from the spec: `make(n)` — every node its own root. -/
def newWQUPC (n : Nat) : WQUPC :=
  ⟨List.range n, List.replicate n 1⟩

/-- Root chasing with fuel (the parent forest of a weighted quick-union has
depth below `n`, so `n` steps always reach the root). -/
def ufRoot (p : List Nat) (fuel x : Nat) : Nat :=
  match fuel with
  | 0 => x
  | f + 1 =>
      let px := p.getD x x
      if px = x then x else ufRoot p f px

/-- Modelled from the spec: `find(x)`. -/
def WQUPC.find (uf : WQUPC) (x : Nat) : Nat := ufRoot uf.id uf.id.length x

/-- Modelled from the spec: `union(x, y)` — link the root of the smaller
tree to the root of the larger. -/
def WQUPC.union (uf : WQUPC) (x y : Nat) : WQUPC :=
  let rx := uf.find x
  let ry := uf.find y
  if rx = ry then uf
  else if uf.sz.getD rx 0 < uf.sz.getD ry 0 then
    ⟨uf.id.set rx ry, uf.sz.set ry (uf.sz.getD ry 0 + uf.sz.getD rx 0)⟩
  else
    ⟨uf.id.set ry rx, uf.sz.set rx (uf.sz.getD rx 0 + uf.sz.getD ry 0)⟩

/-- The union-find built over the live edges. -/
def ufOfEdges (n : Nat) (live : List (Nat × Nat)) : WQUPC :=
  live.foldl (fun uf e => uf.union e.1 e.2) (newWQUPC n)

/-- Modelled from the spec: `count_components()` — the number of union-find
roots among the `n` nodes after uniting all live edges. -/
def countComponents (n : Nat) (live : List (Nat × Nat)) : Nat :=
  ((List.range n).filter (fun i => (ufOfEdges n live).find i == i)).length

/-- `n` singleton communities. -/
def singletonCommunities (n : Nat) : List (List Nat) :=
  (List.range n).map (fun i => [i])

/-- Modelled from the spec: `labelCommunities` (declared graph.h:230) —
equivalence classes of `find` over the live edges, emitted in ascending
order of smallest member (roots ascend, each class is listed by its
root). -/
def labelCommunities (n : Nat) (live : List (Nat × Nat)) : List (List Nat) :=
  ((List.range n).filter (fun i => (ufOfEdges n live).find i == i)).map
    (fun r => (List.range n).filter (fun v => (ufOfEdges n live).find v == r))

/-- The maximum betweenness over the live edges (attained, since the fold
starts from the first edge's score). -/
def maxBet (b : Nat × Nat → ℚ) (live : List (Nat × Nat)) : ℚ :=
  match live with
  | [] => 0
  | e :: rest => (rest.map b).foldl max (b e)

lemma maxBet_attained (b : Nat × Nat → ℚ) (e : Nat × Nat) (rest : List (Nat × Nat)) :
    ∃ d ∈ e :: rest, b d = maxBet b (e :: rest) := by
  rcases foldl_max_mem (rest.map b) (b e) with h | h
  · exact ⟨e, List.mem_cons_self _ _, h.symm⟩
  · obtain ⟨d, hd, hbd⟩ := List.mem_map.mp h
    exact ⟨d, List.mem_cons_of_mem _ hd, hbd⟩

/-- The live edges kept after one cut round: every edge whose betweenness is
below the maximum (all tied maximal edges are cut in the same iteration). -/
def gnKeep (b : Nat × Nat → ℚ) (live : List (Nat × Nat)) : List (Nat × Nat) :=
  live.filter (fun d => decide (¬ b d = maxBet b live))

lemma gnKeep_length_lt (b : Nat × Nat → ℚ) (live : List (Nat × Nat))
    (hne : live ≠ []) : (gnKeep b live).length < live.length := by
  cases live with
  | nil => exact absurd rfl hne
  | cons e rest =>
      obtain ⟨d, hd, hbd⟩ := maxBet_attained b e rest
      apply List.length_filter_lt_length_iff_exists.mpr
      exact ⟨d, hd, by simp [hbd]⟩

/-- Modelled from the spec: the `girvanNewman` driver loop (§4.9, body not
under `src/`).  Each iteration recomputes betweenness on the live edges
(`bet`, kept as a parameter — the theorems hold for every valuation), cuts
all edges tied at the maximum, and stops as soon as the component count
reaches `k`; if the graph becomes edgeless first, it returns `n` singleton
communities.  The first component of the result counts the cut iterations
performed. -/
def gnLoop (bet : List (Nat × Nat) → (Nat × Nat) → ℚ) (n k : Nat)
    (live : List (Nat × Nat)) : Nat × List (List Nat) :=
  if k ≤ countComponents n live then (0, labelCommunities n live)
  else if h : live = [] then (0, singletonCommunities n)
  else
    let r := gnLoop bet n k (gnKeep (bet live) live)
    (r.1 + 1, r.2)
termination_by live.length
decreasing_by
  exact gnKeep_length_lt (bet live) live h

/-- C6: the Girvan–Newman driver terminates — every cut round strictly
decreases the number of live edges, the loop performs at most `m` (the
number of live edges) iterations, and if the graph is edgeless while the
component count has not reached `k` it returns `n` singleton communities. -/
theorem claim_c6_termination (bet : List (Nat × Nat) → (Nat × Nat) → ℚ)
    (n k : Nat) (live : List (Nat × Nat)) :
    (gnLoop bet n k live).1 ≤ live.length ∧
    (live ≠ [] → (gnKeep (bet live) live).length < live.length) ∧
    (live = [] → countComponents n live < k →
      gnLoop bet n k live = (0, singletonCommunities n)) := by
  refine ⟨?_, fun hne => gnKeep_length_lt (bet live) live hne, ?_⟩
  · induction live using gnLoop.induct bet n k with
    | case1 live h =>
        rw [gnLoop, if_pos h]
        exact Nat.zero_le _
    | case2 h =>
        rw [gnLoop, if_neg h, dif_pos rfl]
        exact Nat.zero_le _
    | case3 live h hnil ih =>
        rw [gnLoop, if_neg h, dif_neg hnil]
        show (gnLoop bet n k (gnKeep (bet live) live)).1 + 1 ≤ live.length
        have hlt := gnKeep_length_lt (bet live) live hnil
        omega
  · intro hnil hk
    subst hnil
    rw [gnLoop, if_neg (by omega), dif_pos rfl]

/-! ## BFS (`bfs`, graph.h:155-158; body not under `src/`)

The BFS operates on the live adjacency of the CSR graph (spec §4.7: "for
each live neighbor `v` of `u` (skip half-edges with non-positive
`edge_id`)"); the model takes that live adjacency `adj` and the node count
`n` directly.  The C sentinel `-1` in the `distance` array is modelled as
`none`. -/

/-- The `BFSInfo` struct (graph.h:129-140): per-node parent, distance,
σ-count and predecessor lists, the traversal stack, the source and the node
count. -/
structure BFSInfo where
  parent   : List Int
  distance : List (Option Nat)
  src      : Nat
  n        : Nat
  sigma    : List Nat
  pred     : List (List Nat)
  stack    : List Nat

/-- Number of undiscovered slots of a distance array (used as the
termination measure: every enqueue discovers a node). -/
def noneCount (D : List (Option Nat)) : Nat := D.countP (fun o => o.isNone)

/-- Modelled from the spec: one neighbor step of the BFS main loop (§4.7).
The spec's two sequential tests are
`if (distance[v] == -1) { distance[v] = distance[u]+1; parent[v] = u;
enqueue v }` followed by `if (distance[v] == distance[u]+1) { sigma[v] +=
sigma[u]; append u to pred[v] }`, the second test reading the distance the
first may just have written.  When the first fires, the second therefore
fires as well, so the model flattens the two tests into three disjoint
branches with exactly those effects.  A `v` outside the distance array is
undefined behaviour in C and is skipped here. -/
def visitNeighbor (u : Nat) (iq : BFSInfo × List Nat) (v : Nat) :
    BFSInfo × List Nat :=
  if v < iq.1.distance.length then
    if iq.1.distance.getD v none = none then
      ({ iq.1 with
          distance :=
            iq.1.distance.set v (some ((iq.1.distance.getD u none).getD 0 + 1)),
          parent := iq.1.parent.set v (Int.ofNat u),
          sigma := iq.1.sigma.set v (iq.1.sigma.getD v 0 + iq.1.sigma.getD u 0),
          pred := iq.1.pred.set v (iq.1.pred.getD v [] ++ [u]) }, iq.2 ++ [v])
    else if iq.1.distance.getD v none =
        some ((iq.1.distance.getD u none).getD 0 + 1) then
      ({ iq.1 with
          sigma := iq.1.sigma.set v (iq.1.sigma.getD v 0 + iq.1.sigma.getD u 0),
          pred := iq.1.pred.set v (iq.1.pred.getD v [] ++ [u]) }, iq.2)
    else iq
  else iq

/-- Modelled from the spec: processing one dequeued node `u` — append `u` to
the stack, then visit its live neighbors in adjacency order, collecting the
newly discovered nodes to enqueue. -/
def processNode (adj : Nat → List Nat) (info : BFSInfo) (u : Nat) :
    BFSInfo × List Nat :=
  (adj u).foldl (visitNeighbor u) ({ info with stack := info.stack ++ [u] }, [])

lemma countP_set_some (D : List (Option Nat)) :
    ∀ (v : Nat) (a b : Option Nat), D[v]? = some a →
      (D.set v b).countP (fun o => o.isNone) + (if a.isNone then 1 else 0) =
        D.countP (fun o => o.isNone) + (if b.isNone then 1 else 0) := by
  induction D with
  | nil => intro v a b h; simp at h
  | cons x D ih =>
      intro v a b h
      cases v with
      | zero =>
          simp only [List.getElem?_cons_zero, Option.some.injEq] at h
          subst h
          simp only [List.set_cons_zero, List.countP_cons]
          omega
      | succ v =>
          simp only [List.getElem?_cons_succ] at h
          have hih := ih v a b h
          simp only [List.set_cons_succ, List.countP_cons]
          omega

lemma visitNeighbor_measure (u : Nat) (iq : BFSInfo × List Nat) (v : Nat) :
    noneCount (visitNeighbor u iq v).1.distance + (visitNeighbor u iq v).2.length =
      noneCount iq.1.distance + iq.2.length := by
  unfold visitNeighbor
  by_cases hlt : v < iq.1.distance.length
  · rw [if_pos hlt]
    by_cases hnone : iq.1.distance.getD v none = none
    · rw [if_pos hnone]
      have hv : iq.1.distance[v]? = some none := by
        rw [List.getElem?_eq_getElem hlt, ← List.getD_eq_getElem _ none hlt, hnone]
      have hkey := countP_set_some iq.1.distance v none
        (some ((iq.1.distance.getD u none).getD 0 + 1)) hv
      have hkey' : (iq.1.distance.set v
            (some ((iq.1.distance.getD u none).getD 0 + 1))).countP
              (fun o => o.isNone) + 1 =
          iq.1.distance.countP (fun o => o.isNone) := by
        simpa using hkey
      simp only [noneCount, List.length_append, List.length_cons, List.length_nil]
      omega
    · rw [if_neg hnone]
      by_cases h2 : iq.1.distance.getD v none =
          some ((iq.1.distance.getD u none).getD 0 + 1)
      · rw [if_pos h2]
      · rw [if_neg h2]
  · rw [if_neg hlt]

lemma foldl_visit_measure (u : Nat) (l : List Nat) :
    ∀ iq : BFSInfo × List Nat,
      noneCount (l.foldl (visitNeighbor u) iq).1.distance +
        (l.foldl (visitNeighbor u) iq).2.length =
      noneCount iq.1.distance + iq.2.length := by
  induction l with
  | nil => intro iq; rfl
  | cons v l ih =>
      intro iq
      rw [List.foldl_cons, ih (visitNeighbor u iq v), visitNeighbor_measure]

lemma processNode_measure (adj : Nat → List Nat) (info : BFSInfo) (u : Nat) :
    noneCount (processNode adj info u).1.distance +
      (processNode adj info u).2.length = noneCount info.distance := by
  unfold processNode
  rw [foldl_visit_measure]
  rfl

/-- Modelled from the spec: the BFS main loop — `while queue nonempty: pop
u; push u on the stack; visit u's live neighbors; enqueue the newly
discovered ones`. -/
def bfsLoop (adj : Nat → List Nat) : BFSInfo → List Nat → BFSInfo
  | info, [] => info
  | info, u :: rest =>
      bfsLoop adj (processNode adj info u).1 (rest ++ (processNode adj info u).2)
termination_by info queue => noneCount info.distance + queue.length
decreasing_by
  have h := processNode_measure adj info u
  simp only [List.length_append, List.length_cons]
  omega

/-- Modelled from the spec: `bfs` (graph.h:158) — reset all arrays to their
sentinels (`resetBFSInfo`), set `distance[src] = 0`, `sigma[src] = 1`,
enqueue `src`, and run the main loop. -/
def bfs (adj : Nat → List Nat) (n src : Nat) : BFSInfo :=
  bfsLoop adj
    { parent := List.replicate n (-1)
      distance := (List.replicate n (none : Option Nat)).set src (some 0)
      src := src
      n := n
      sigma := (List.replicate n 0).set src 1
      pred := List.replicate n []
      stack := [] }
    [src]

/-- The number of walks of length exactly `d` from `src` to `v` in the
adjacency `adj` over nodes `0 … n−1`.  A walk of length equal to the least
walk length to `v` is exactly a shortest path, so `walks` at that length is
the number of shortest `src → v` paths. -/
def walks (adj : Nat → List Nat) (n src : Nat) : Nat → Nat → Nat
  | 0, v => if v = src then 1 else 0
  | d + 1, v =>
      ((List.range n).map (fun u => if v ∈ adj u then walks adj n src d u else 0)).sum

/-- `d` is the length of the shortest `src → v` walk. -/
def IsDist (adj : Nat → List Nat) (n src v d : Nat) : Prop :=
  walks adj n src d v ≠ 0 ∧ ∀ d' < d, walks adj n src d' v = 0

instance (adj : Nat → List Nat) (n src v d : Nat) :
    Decidable (IsDist adj n src v d) := by
  unfold IsDist; infer_instance

/-- The distance entry of node `v` (`-1` sentinel as `none`). -/
def dis (info : BFSInfo) (v : Nat) : Option Nat := info.distance.getD v none

/-- The numeric distance of a discovered node (0 for undiscovered ones). -/
def dvl (info : BFSInfo) (v : Nat) : Nat := (dis info v).getD 0

lemma getD_set {α : Type} (l : List α) (v w : Nat) (x d : α) :
    (l.set v x).getD w d = if v = w ∧ v < l.length then x else l.getD w d := by
  simp only [List.getD, List.get?_eq_getElem?, List.getElem?_set]
  by_cases hvw : v = w
  · subst hvw
    by_cases hlen : v < l.length
    · simp [hlen]
    · rw [if_pos rfl, if_neg hlen,
        if_neg (fun h : v = v ∧ v < l.length => hlen h.2),
        List.getElem?_eq_none (by omega)]
  · simp [hvw]

lemma walks_succ_exists {adj : Nat → List Nat} {n src d v : Nat}
    (h : walks adj n src (d + 1) v ≠ 0) :
    ∃ u, u < n ∧ v ∈ adj u ∧ walks adj n src d u ≠ 0 := by
  by_contra hcon
  push_neg at hcon
  apply h
  show ((List.range n).map (fun u => if v ∈ adj u then walks adj n src d u else 0)).sum = 0
  apply List.sum_eq_zero
  intro x hx
  obtain ⟨u, hu, rfl⟩ := List.mem_map.mp hx
  by_cases hmem : v ∈ adj u
  · rw [if_pos hmem]
    exact hcon u (List.mem_range.mp hu) hmem
  · rw [if_neg hmem]

lemma walks_succ_ne_zero {adj : Nat → List Nat} {n src d u v : Nat}
    (hu : u < n) (hv : v ∈ adj u) (h : walks adj n src d u ≠ 0) :
    walks adj n src (d + 1) v ≠ 0 := by
  intro hzero
  apply h
  have hall := List.sum_eq_zero_iff.mp hzero
  have hmem : (if v ∈ adj u then walks adj n src d u else 0) ∈
      (List.range n).map (fun u => if v ∈ adj u then walks adj n src d u else 0) :=
    List.mem_map_of_mem _ (List.mem_range.mpr hu)
  have := hall _ hmem
  rwa [if_pos hv] at this

lemma exists_isDist_le {adj : Nat → List Nat} {n src d v : Nat}
    (h : walks adj n src d v ≠ 0) : ∃ e ≤ d, IsDist adj n src v e := by
  have hex : ∃ e, walks adj n src e v ≠ 0 := ⟨d, h⟩
  refine ⟨Nat.find hex, Nat.find_min' hex h, Nat.find_spec hex, ?_⟩
  intro d' hd'
  by_contra hne
  exact absurd (Nat.find_min' hex hne) (by omega)

lemma isDist_unique {adj : Nat → List Nat} {n src v d d' : Nat}
    (h : IsDist adj n src v d) (h' : IsDist adj n src v d') : d = d' := by
  rcases lt_trichotomy d d' with hlt | heq | hgt
  · exact absurd (h'.2 d hlt) h.1
  · exact heq
  · exact absurd (h.2 d' hgt) h'.1

lemma isDist_src (adj : Nat → List Nat) (n src : Nat) :
    IsDist adj n src src 0 :=
  ⟨by simp [walks], fun d' hd' => absurd hd' (Nat.not_lt_zero _)⟩

lemma isDist_zero_eq_src {adj : Nat → List Nat} {n src v : Nat}
    (h : IsDist adj n src v 0) : v = src := by
  have := h.1
  by_contra hne
  exact this (by simp [walks, hne])

lemma isDist_succ_pred {adj : Nat → List Nat} {n src v d : Nat}
    (h : IsDist adj n src v (d + 1)) :
    ∃ u, u < n ∧ v ∈ adj u ∧ IsDist adj n src u d := by
  obtain ⟨u, hu, hmem, hw⟩ := walks_succ_exists h.1
  obtain ⟨e, he, hdist⟩ := exists_isDist_le hw
  rcases Nat.lt_or_ge e d with hlt | hge
  · exact absurd (h.2 (e + 1) (by omega)) (walks_succ_ne_zero hu hmem hdist.1)
  · have : e = d := by omega
    subst this
    exact ⟨u, hu, hmem, hdist⟩

lemma sum_map_filter (l : List Nat) (p : Nat → Bool) (f : Nat → Nat) :
    ((l.filter p).map f).sum = (l.map (fun x => if p x then f x else 0)).sum := by
  induction l with
  | nil => rfl
  | cons a l ih =>
      by_cases h : p a
      · rw [List.filter_cons_of_pos h, List.map_cons, List.map_cons, List.sum_cons,
          List.sum_cons, ih, if_pos h]
      · rw [List.filter_cons_of_neg (by simpa using h), List.map_cons, List.sum_cons,
          ih, if_neg (by simpa using h)]
        omega

lemma foldl_visit_spec (u : Nat) (L : List Nat) (hL : L.Nodup) :
    ∀ (s0 : BFSInfo) (q0 : List Nat),
      (∀ v ∈ L, v < s0.distance.length) →
      (∀ v ∈ L, v < s0.sigma.length) →
      ∀ du : Nat, dis s0 u = some du →
      (L.foldl (visitNeighbor u) (s0, q0)).1.distance.length = s0.distance.length ∧
      (L.foldl (visitNeighbor u) (s0, q0)).1.sigma.length = s0.sigma.length ∧
      (L.foldl (visitNeighbor u) (s0, q0)).1.stack = s0.stack ∧
      (L.foldl (visitNeighbor u) (s0, q0)).1.src = s0.src ∧
      (L.foldl (visitNeighbor u) (s0, q0)).1.n = s0.n ∧
      (L.foldl (visitNeighbor u) (s0, q0)).2 =
        q0 ++ L.filter (fun v => dis s0 v == none) ∧
      (∀ w, dis (L.foldl (visitNeighbor u) (s0, q0)).1 w =
        if w ∈ L ∧ dis s0 w = none then some (du + 1) else dis s0 w) ∧
      (∀ w, (L.foldl (visitNeighbor u) (s0, q0)).1.sigma.getD w 0 =
        s0.sigma.getD w 0 +
          if w ∈ L ∧ (dis s0 w = none ∨ dis s0 w = some (du + 1))
          then s0.sigma.getD u 0 else 0) := by
  induction L with
  | nil =>
      intro s0 q0 _ _ du hu
      refine ⟨rfl, rfl, rfl, rfl, rfl, by simp, fun w => by simp, fun w => by simp⟩
  | cons v L' ih =>
      intro s0 q0 hLlt hLslt du hu
      have hvlt : v < s0.distance.length := hLlt v (List.mem_cons_self _ _)
      have hvslt : v < s0.sigma.length := hLslt v (List.mem_cons_self _ _)
      have hvL' : v ∉ L' := (List.nodup_cons.mp hL).1
      have hL' : L'.Nodup := (List.nodup_cons.mp hL).2
      rw [List.foldl_cons]
      by_cases hfresh : dis s0 v = none
      · -- discovery branch
        have hvu : v ≠ u := fun h => by rw [h, hu] at hfresh; cases hfresh
        have hstep : visitNeighbor u (s0, q0) v =
            ({ s0 with
                distance := s0.distance.set v (some (du + 1)),
                parent := s0.parent.set v (Int.ofNat u),
                sigma := s0.sigma.set v (s0.sigma.getD v 0 + s0.sigma.getD u 0),
                pred := s0.pred.set v (s0.pred.getD v [] ++ [u]) }, q0 ++ [v]) := by
          unfold visitNeighbor
          have hfresh' : (s0, q0).1.distance.getD v none = none := hfresh
          have hdu : ((s0, q0).1.distance.getD u none).getD 0 = du := by
            show (dis s0 u).getD 0 = du
            rw [hu]; rfl
          rw [if_pos hvlt, if_pos hfresh', hdu]
        rw [hstep]
        set s1 : BFSInfo :=
          { s0 with
              distance := s0.distance.set v (some (du + 1)),
              parent := s0.parent.set v (Int.ofNat u),
              sigma := s0.sigma.set v (s0.sigma.getD v 0 + s0.sigma.getD u 0),
              pred := s0.pred.set v (s0.pred.getD v [] ++ [u]) } with hs1
        have hs1dlen : s1.distance.length = s0.distance.length := by
          rw [hs1]; exact List.length_set _ _ _
        have hs1slen : s1.sigma.length = s0.sigma.length := by
          rw [hs1]; exact List.length_set _ _ _
        have hs1d : ∀ w, dis s1 w =
            if v = w then some (du + 1) else dis s0 w := by
          intro w
          show (s0.distance.set v (some (du + 1))).getD w none = _
          rw [getD_set]
          by_cases hvw : v = w
          · rw [if_pos ⟨hvw, hvlt⟩, if_pos hvw]
          · rw [if_neg (fun h => hvw h.1), if_neg hvw]
            rfl
        have hs1s : ∀ w, s1.sigma.getD w 0 =
            if v = w then s0.sigma.getD v 0 + s0.sigma.getD u 0
            else s0.sigma.getD w 0 := by
          intro w
          show (s0.sigma.set v _).getD w 0 = _
          rw [getD_set]
          by_cases hvw : v = w
          · rw [if_pos ⟨hvw, hvslt⟩, if_pos hvw]
          · rw [if_neg (fun h => hvw h.1), if_neg hvw]
        have hu1 : dis s1 u = some du := by rw [hs1d, if_neg (fun h : v = u => hvu h), hu]
        have hσu : s1.sigma.getD u 0 = s0.sigma.getD u 0 := by
          rw [hs1s, if_neg (fun h : v = u => hvu h)]
        obtain ⟨ihdlen, ihslen, ihstack, ihsrc, ihn, ihq, ihd, ihs⟩ :=
          ih hL' s1 (q0 ++ [v])
            (fun w hw => hs1dlen ▸ hLlt w (List.mem_cons_of_mem _ hw))
            (fun w hw => hs1slen ▸ hLslt w (List.mem_cons_of_mem _ hw))
            du hu1
        refine ⟨by rw [ihdlen, hs1dlen], by rw [ihslen, hs1slen],
          by rw [ihstack], by rw [ihsrc], by rw [ihn], ?_, ?_, ?_⟩
        · rw [ihq]
          have hfilter : L'.filter (fun w => dis s1 w == none) =
              L'.filter (fun w => dis s0 w == none) := by
            apply List.filter_congr
            intro w hw
            have hwv : v ≠ w := fun h => hvL' (h ▸ hw)
            rw [hs1d w, if_neg hwv]
          rw [hfilter, List.filter_cons_of_pos (by simp [hfresh]), List.append_assoc]
          rfl
        · intro w
          rw [ihd w, hs1d w]
          by_cases hvw : v = w
          · subst hvw
            rw [if_neg (fun h => hvL' h.1), if_pos rfl,
              if_pos ⟨List.mem_cons_self _ _, hfresh⟩]
          · rw [if_neg hvw]
            by_cases hwL : w ∈ L' ∧ dis s0 w = none
            · rw [if_pos hwL, if_pos ⟨List.mem_cons_of_mem _ hwL.1, hwL.2⟩]
            · rw [if_neg hwL, if_neg (fun h => hwL ⟨(List.mem_cons.mp h.1).resolve_left
                (fun he => hvw he.symm), h.2⟩)]
        · intro w
          rw [ihs w, hσu, hs1s w]
          by_cases hvw : v = w
          · subst hvw
            have hc1 : ¬ (v ∈ L' ∧ (dis s1 v = none ∨ dis s1 v = some (du + 1))) :=
              fun h => hvL' h.1
            have hc2 : v ∈ v :: L' ∧ (dis s0 v = none ∨ dis s0 v = some (du + 1)) :=
              ⟨List.mem_cons_self _ _, Or.inl hfresh⟩
            rw [if_pos rfl, if_neg hc1, if_pos hc2]
            omega
          · rw [if_neg hvw]
            have hd1 : dis s1 w = dis s0 w := by rw [hs1d w, if_neg hvw]
            by_cases hwL : w ∈ L' ∧ (dis s0 w = none ∨ dis s0 w = some (du + 1))
            · rw [if_pos (hd1 ▸ hwL), if_pos ⟨List.mem_cons_of_mem _ hwL.1, hwL.2⟩]
            · rw [if_neg (fun h => hwL ⟨h.1, hd1 ▸ h.2⟩),
                if_neg (fun h => hwL ⟨(List.mem_cons.mp h.1).resolve_left
                  (fun he => hvw he.symm), h.2⟩)]
      · -- v already discovered
        by_cases hacc : dis s0 v = some (du + 1)
        · -- accumulation branch
          have hvu : v ≠ u := by
            intro h
            rw [h, hu] at hacc
            simp at hacc
          have hstep : visitNeighbor u (s0, q0) v =
              ({ s0 with
                  sigma := s0.sigma.set v (s0.sigma.getD v 0 + s0.sigma.getD u 0),
                  pred := s0.pred.set v (s0.pred.getD v [] ++ [u]) }, q0) := by
            unfold visitNeighbor
            have hfresh' : ¬ (s0, q0).1.distance.getD v none = none := hfresh
            have hdu : ((s0, q0).1.distance.getD u none).getD 0 = du := by
              show (dis s0 u).getD 0 = du
              rw [hu]; rfl
            have hacc' : (s0, q0).1.distance.getD v none = some (du + 1) := hacc
            rw [if_pos hvlt, if_neg hfresh', hdu, if_pos hacc']
          rw [hstep]
          set s1 : BFSInfo :=
            { s0 with
                sigma := s0.sigma.set v (s0.sigma.getD v 0 + s0.sigma.getD u 0),
                pred := s0.pred.set v (s0.pred.getD v [] ++ [u]) } with hs1
          have hs1d : ∀ w, dis s1 w = dis s0 w := fun w => rfl
          have hs1s : ∀ w, s1.sigma.getD w 0 =
              if v = w then s0.sigma.getD v 0 + s0.sigma.getD u 0
              else s0.sigma.getD w 0 := by
            intro w
            show (s0.sigma.set v _).getD w 0 = _
            rw [getD_set]
            by_cases hvw : v = w
            · rw [if_pos ⟨hvw, hvslt⟩, if_pos hvw]
            · rw [if_neg (fun h => hvw h.1), if_neg hvw]
          have hu1 : dis s1 u = some du := hu
          have hσu : s1.sigma.getD u 0 = s0.sigma.getD u 0 := by
            rw [hs1s, if_neg (fun h : v = u => hvu h)]
          obtain ⟨ihdlen, ihslen, ihstack, ihsrc, ihn, ihq, ihd, ihs⟩ :=
            ih hL' s1 q0
              (fun w hw => hLlt w (List.mem_cons_of_mem _ hw))
              (fun w hw => by
                have : s1.sigma.length = s0.sigma.length := List.length_set _ _ _
                rw [this]
                exact hLslt w (List.mem_cons_of_mem _ hw))
              du hu1
          refine ⟨ihdlen, by rw [ihslen]; exact List.length_set _ _ _,
            ihstack, ihsrc, ihn, ?_, ?_, ?_⟩
          · rw [ihq, List.filter_cons_of_neg (by simp [hfresh])]
            have hfilter : L'.filter (fun w => dis s1 w == none) =
                L'.filter (fun w => dis s0 w == none) :=
              List.filter_congr (fun w _ => by rw [hs1d w])
            rw [hfilter]
          · intro w
            rw [ihd w]
            simp only [hs1d]
            by_cases hwL : w ∈ L' ∧ dis s0 w = none
            · rw [if_pos hwL, if_pos ⟨List.mem_cons_of_mem _ hwL.1, hwL.2⟩]
            · rw [if_neg hwL, if_neg (by
                rintro ⟨hm, hd⟩
                rcases List.mem_cons.mp hm with he | hm2
                · subst he; exact hfresh hd
                · exact hwL ⟨hm2, hd⟩)]
          · intro w
            rw [ihs w, hσu, hs1s w]
            simp only [hs1d]
            by_cases hvw : v = w
            · subst hvw
              have hc1 : ¬ (v ∈ L' ∧ (dis s0 v = none ∨ dis s0 v = some (du + 1))) :=
                fun h => hvL' h.1
              have hc2 : v ∈ v :: L' ∧ (dis s0 v = none ∨ dis s0 v = some (du + 1)) :=
                ⟨List.mem_cons_self _ _, Or.inr hacc⟩
              rw [if_pos rfl, if_neg hc1, if_pos hc2]
              omega
            · rw [if_neg hvw]
              by_cases hwL : w ∈ L' ∧ (dis s0 w = none ∨ dis s0 w = some (du + 1))
              · rw [if_pos hwL, if_pos ⟨List.mem_cons_of_mem _ hwL.1, hwL.2⟩]
              · rw [if_neg hwL, if_neg (fun h => hwL ⟨(List.mem_cons.mp h.1).resolve_left
                  (fun he => hvw he.symm), h.2⟩)]
        · -- skip branch: v discovered at some other distance
          have hstep : visitNeighbor u (s0, q0) v = (s0, q0) := by
            unfold visitNeighbor
            have hfresh' : ¬ (s0, q0).1.distance.getD v none = none := hfresh
            have hdu : ((s0, q0).1.distance.getD u none).getD 0 = du := by
              show (dis s0 u).getD 0 = du
              rw [hu]; rfl
            have hacc' : ¬ (s0, q0).1.distance.getD v none = some (du + 1) := hacc
            rw [if_pos hvlt, if_neg hfresh', hdu, if_neg hacc']
          rw [hstep]
          obtain ⟨ihdlen, ihslen, ihstack, ihsrc, ihn, ihq, ihd, ihs⟩ :=
            ih hL' s0 q0
              (fun w hw => hLlt w (List.mem_cons_of_mem _ hw))
              (fun w hw => hLslt w (List.mem_cons_of_mem _ hw))
              du hu
          refine ⟨ihdlen, ihslen, ihstack, ihsrc, ihn, ?_, ?_, ?_⟩
          · rw [ihq, List.filter_cons_of_neg (by simp [hfresh])]
          · intro w
            rw [ihd w]
            by_cases hwL : w ∈ L' ∧ dis s0 w = none
            · rw [if_pos hwL, if_pos ⟨List.mem_cons_of_mem _ hwL.1, hwL.2⟩]
            · rw [if_neg hwL, if_neg (by
                rintro ⟨hm, hd⟩
                rcases List.mem_cons.mp hm with he | hm2
                · subst he; exact hfresh hd
                · exact hwL ⟨hm2, hd⟩)]
          · intro w
            rw [ihs w]
            by_cases hwL : w ∈ L' ∧ (dis s0 w = none ∨ dis s0 w = some (du + 1))
            · rw [if_pos hwL, if_pos ⟨List.mem_cons_of_mem _ hwL.1, hwL.2⟩]
            · rw [if_neg hwL, if_neg (by
                rintro ⟨hm, hd⟩
                rcases List.mem_cons.mp hm with he | hm2
                · subst he; exact hd.elim hfresh hacc
                · exact hwL ⟨hm2, hd⟩)]

/-- Sum of the true shortest-path counts of the processed predecessors of a
node at true distance `e + 1`: when every node at true distance `e` has been
processed and carries the correct stored distance, that sum is exactly the
number of shortest walks to `v` of length `e + 1` (Brandes' σ recurrence). -/
lemma sigma_sum_eq_walks {adj : Nat → List Nat} {n src : Nat}
    (S : List Nat) (f : Nat → Option Nat) (v e : Nat)
    (hv : IsDist adj n src v (e + 1))
    (hS_nodup : S.Nodup) (hS_lt : ∀ w ∈ S, w < n)
    (hcor : ∀ w d, f w = some d → IsDist adj n src w d)
    (hcompl : ∀ w, w < n → IsDist adj n src w e → w ∈ S ∧ f w = some e) :
    ((S.filter (fun w => decide (v ∈ adj w) && (f w == some e))).map
      (fun w => walks adj n src e w)).sum = walks adj n src (e + 1) v := by
  have hstep1 : walks adj n src (e + 1) v =
      ((List.range n).map (fun w =>
        if (decide (v ∈ adj w) && (f w == some e)) = true
        then walks adj n src e w else 0)).sum := by
    show ((List.range n).map (fun w => if v ∈ adj w then walks adj n src e w else 0)).sum = _
    congr 1
    apply List.map_congr_left
    intro w hw
    by_cases hmem : v ∈ adj w
    · by_cases hD : f w = some e
      · have h2 : (f w == some e) = true := beq_iff_eq.mpr hD
        rw [if_pos hmem, if_pos (by rw [decide_eq_true hmem, h2]; rfl)]
      · have h2 : (f w == some e) = false := beq_eq_false_iff_ne.mpr hD
        rw [if_pos hmem, if_neg (by rw [h2, Bool.and_false]; exact Bool.false_ne_true)]
        by_contra hne
        obtain ⟨e', he', hdist⟩ := exists_isDist_le hne
        rcases Nat.lt_or_ge e' e with hlt | hge
        · exact absurd (hv.2 (e' + 1) (by omega))
            (walks_succ_ne_zero (List.mem_range.mp hw) hmem hdist.1)
        · have : e' = e := by omega
          subst this
          exact hD (hcompl w (List.mem_range.mp hw) hdist).2
    · have h1 : decide (v ∈ adj w) = false := decide_eq_false hmem
      rw [if_neg hmem, if_neg (by rw [h1, Bool.false_and]; exact Bool.false_ne_true)]
  rw [hstep1, ← sum_map_filter]
  have hperm : ((List.range n).filter
      (fun w => decide (v ∈ adj w) && (f w == some e))).Perm
      (S.filter (fun w => decide (v ∈ adj w) && (f w == some e))) := by
    apply List.perm_of_nodup_nodup_toFinset_eq
      ((List.nodup_range n).filter _) (hS_nodup.filter _)
    apply Finset.ext
    intro x
    simp only [List.mem_toFinset, List.mem_filter, List.mem_range]
    constructor
    · rintro ⟨hxn, hcond⟩
      have hD : f x = some e :=
        beq_iff_eq.mp ((Bool.and_eq_true _ _).mp hcond).2
      exact ⟨(hcompl x hxn (hcor x e hD)).1, hcond⟩
    · rintro ⟨hxS, hcond⟩
      exact ⟨hS_lt x hxS, hcond⟩
  rw [hperm.map _ |>.sum_eq]

/-- The BFS main-loop invariant, tying the mutable arrays to the true
shortest-walk structure of the live graph. -/
structure BFSInv (adj : Nat → List Nat) (n src : Nat) (info : BFSInfo)
    (queue : List Nat) : Prop where
  hdlen : info.distance.length = n
  hslen : info.sigma.length = n
  hmem : ∀ v ∈ info.stack ++ queue, v < n
  hdisc : ∀ v ∈ info.stack ++ queue, dis info v ≠ none
  hnodup : (info.stack ++ queue).Nodup
  hcover : ∀ v, v < n → dis info v ≠ none → v ∈ info.stack ++ queue
  hcorrect : ∀ v d, dis info v = some d → IsDist adj n src v d
  horder : (info.stack ++ queue).Pairwise (fun a b => dvl info a ≤ dvl info b)
  hwidth : ∀ a ∈ queue, ∀ b ∈ queue, dvl info a ≤ dvl info b + 1
  hclosed : ∀ w ∈ info.stack, ∀ v ∈ adj w, dis info v ≠ none
  hcompl : ∀ w, w < n → ∀ d, IsDist adj n src w d →
    (∀ a ∈ queue, d < dvl info a) → w ∈ info.stack
  hsigma : ∀ v d', v < n → dis info v = some d' →
    info.sigma.getD v 0 = (if v = src then 1 else 0) +
      ((info.stack.filter (fun w => decide (v ∈ adj w) &&
        ((dis info w).map (· + 1) == some d'))).map
        (fun w => walks adj n src (d' - 1) w)).sum
  hsigma0 : ∀ v, v < n → dis info v = none → info.sigma.getD v 0 = 0
  hsrcdisc : dis info src = some 0

lemma filter_pred_shift (adj : Nat → List Nat) (S : List Nat) (f : Nat → Option Nat)
    (v e : Nat) :
    S.filter (fun w => decide (v ∈ adj w) && ((f w).map (· + 1) == some (e + 1))) =
    S.filter (fun w => decide (v ∈ adj w) && (f w == some e)) := by
  apply List.filter_congr
  intro w _
  cases h : f w with
  | none => simp [h]
  | some x => simp [h]

/-- At the moment a node `u` is dequeued, its σ count is complete: it equals
the number of shortest `src → u` paths. -/
lemma sigma_at_pop (adj : Nat → List Nat) (n src : Nat) (info : BFSInfo)
    (u : Nat) (rest : List Nat) (hinv : BFSInv adj n src info (u :: rest))
    (du : Nat) (hdu : dis info u = some du) (hun : u < n) :
    info.sigma.getD u 0 = walks adj n src du u := by
  have hIsu : IsDist adj n src u du := hinv.hcorrect u du hdu
  have hσ := hinv.hsigma u du hun hdu
  cases du with
  | zero =>
      have husrc : u = src := isDist_zero_eq_src hIsu
      have hnil : info.stack.filter (fun w => decide (u ∈ adj w) &&
          ((dis info w).map (· + 1) == some 0)) = [] := by
        apply List.filter_eq_nil_iff.mpr
        intro w _
        cases h : dis info w with
        | none => simp [h]
        | some x => simp [h]
      rw [hσ, hnil, if_pos husrc]
      subst husrc
      simp [walks]
  | succ e =>
      have hune : u ≠ src := by
        intro h
        have h0 : IsDist adj n src u 0 := by rw [h]; exact isDist_src adj n src
        have := isDist_unique hIsu h0
        omega
      have hrest_ge : ∀ a ∈ rest, e + 1 ≤ (dis info a).getD 0 := by
        have hp := (List.pairwise_append.mp hinv.horder).2.1
        intro a ha
        have hle := (List.pairwise_cons.mp hp).1 a ha
        simp only [dvl, hdu, Option.getD_some] at hle
        exact hle
      have hsum := @sigma_sum_eq_walks adj n src
        info.stack (dis info) u e hIsu
        (hinv.hnodup.of_append_left)
        (fun w hw => hinv.hmem w (List.mem_append_left _ hw))
        (fun w d h => hinv.hcorrect w d h)
        (fun w hwn hwd => by
          have hwstack : w ∈ info.stack := by
            apply hinv.hcompl w hwn e hwd
            intro a ha
            rcases List.mem_cons.mp ha with rfl | ha'
            · simp only [dvl, hdu, Option.getD_some]
              omega
            · have h1 := hrest_ge a ha'
              simp only [dvl]
              omega
          refine ⟨hwstack, ?_⟩
          have hdw : dis info w ≠ none :=
            hinv.hdisc w (List.mem_append_left _ hwstack)
          cases hd2 : dis info w with
          | none => exact absurd hd2 hdw
          | some d2 =>
              have := isDist_unique (hinv.hcorrect w d2 hd2) hwd
              rw [this])
      rw [hσ, if_neg hune, filter_pred_shift]
      show 0 + _ = _
      rw [Nat.zero_add]
      have : e + 1 - 1 = e := rfl
      rw [this, hsum]

lemma processNode_preserves (adj : Nat → List Nat) (n src : Nat)
    (H2 : ∀ u, u < n → ∀ v ∈ adj u, v < n)
    (H3 : ∀ u, u < n → (adj u).Nodup)
    (info : BFSInfo) (u : Nat) (rest : List Nat)
    (hinv : BFSInv adj n src info (u :: rest)) :
    BFSInv adj n src (processNode adj info u).1
      (rest ++ (processNode adj info u).2) := by
  have humem : u ∈ info.stack ++ u :: rest :=
    List.mem_append_right _ (List.mem_cons_self _ _)
  have hun : u < n := hinv.hmem u humem
  have hdu_ne : dis info u ≠ none := hinv.hdisc u humem
  obtain ⟨du, hdu⟩ : ∃ du, dis info u = some du := by
    cases h : dis info u with
    | none => exact absurd h hdu_ne
    | some d => exact ⟨d, rfl⟩
  have hIsu : IsDist adj n src u du := hinv.hcorrect u du hdu
  obtain ⟨hdlenF, hslenF, hstkF, hsrcF, hnF, hqF, hdF, hsF⟩ :=
    foldl_visit_spec u (adj u) (H3 u hun)
      { info with stack := info.stack ++ [u] } []
      (fun v hv => by
        show v < info.distance.length
        rw [hinv.hdlen]
        exact H2 u hun v hv)
      (fun v hv => by
        show v < info.sigma.length
        rw [hinv.hslen]
        exact H2 u hun v hv)
      du hdu
  have hd2 : ∀ w, dis (processNode adj info u).1 w =
      if w ∈ adj u ∧ dis info w = none then some (du + 1) else dis info w := hdF
  have hs2 : ∀ w, (processNode adj info u).1.sigma.getD w 0 =
      info.sigma.getD w 0 +
        if w ∈ adj u ∧ (dis info w = none ∨ dis info w = some (du + 1))
        then info.sigma.getD u 0 else 0 := hsF
  have hq2 : (processNode adj info u).2 =
      (adj u).filter (fun v => dis info v == none) := by
    have h := hqF
    rw [List.nil_append] at h
    exact h
  have hFstack : (processNode adj info u).1.stack = info.stack ++ [u] := hstkF
  have hdlen2 : (processNode adj info u).1.distance.length = n :=
    hdlenF.trans hinv.hdlen
  have hslen2 : (processNode adj info u).1.sigma.length = n :=
    hslenF.trans hinv.hslen
  have hmemQ : ∀ v, v ∈ (processNode adj info u).2 ↔
      (v ∈ adj u ∧ dis info v = none) := by
    intro v
    rw [hq2, List.mem_filter]
    constructor
    · rintro ⟨h1, h2⟩
      exact ⟨h1, beq_iff_eq.mp h2⟩
    · rintro ⟨h1, h2⟩
      exact ⟨h1, beq_iff_eq.mpr h2⟩
  have hFd_old : ∀ v, dis info v ≠ none →
      dis (processNode adj info u).1 v = dis info v := by
    intro v h
    rw [hd2 v, if_neg (fun hc => h hc.2)]
  have hFdvl_old : ∀ v, dis info v ≠ none →
      dvl (processNode adj info u).1 v = dvl info v := by
    intro v h
    show (dis (processNode adj info u).1 v).getD 0 = (dis info v).getD 0
    rw [hFd_old v h]
  have hQdis : ∀ v ∈ (processNode adj info u).2,
      dis (processNode adj info u).1 v = some (du + 1) := by
    intro v hv
    obtain ⟨h1, h2⟩ := (hmemQ v).mp hv
    rw [hd2 v, if_pos ⟨h1, h2⟩]
  have hQdvl : ∀ v ∈ (processNode adj info u).2,
      dvl (processNode adj info u).1 v = du + 1 := by
    intro v hv
    show (dis (processNode adj info u).1 v).getD 0 = du + 1
    rw [hQdis v hv]
    rfl
  have hdvlu : dvl info u = du := by
    show (dis info u).getD 0 = du
    rw [hdu]
    rfl
  have hproc_le : ∀ w ∈ info.stack, dvl info w ≤ du := by
    intro w hw
    have := (List.pairwise_append.mp hinv.horder).2.2 w hw u (List.mem_cons_self _ _)
    rwa [hdvlu] at this
  have hrest_ge : ∀ a ∈ rest, du ≤ dvl info a := by
    intro a ha
    have := (List.pairwise_cons.mp
      (List.pairwise_append.mp hinv.horder).2.1).1 a ha
    rwa [hdvlu] at this
  have hrest_le : ∀ a ∈ rest, dvl info a ≤ du + 1 := by
    intro a ha
    have := hinv.hwidth a (List.mem_cons_of_mem _ ha) u (List.mem_cons_self _ _)
    rwa [hdvlu] at this
  have hold_le : ∀ a ∈ info.stack ++ u :: rest, dvl info a ≤ du + 1 := by
    intro a ha
    rcases List.mem_append.mp ha with h | h
    · have := hproc_le a h
      omega
    · rcases List.mem_cons.mp h with rfl | h'
      · omega
      · exact hrest_le a h'
  have hfresh_isdist : ∀ v, v ∈ adj u → dis info v = none →
      IsDist adj n src v (du + 1) := by
    intro v hvadj hvnone
    constructor
    · exact walks_succ_ne_zero hun hvadj hIsu.1
    · intro d' hd'
      by_contra hne
      obtain ⟨e, he, hdist⟩ := exists_isDist_le hne
      have hvn : v < n := H2 u hun v hvadj
      have hvdisc : dis info v ≠ none := by
        rcases Nat.lt_or_ge e du with hlt | hge
        · have hvstack := hinv.hcompl v hvn e hdist (fun a ha => by
            rcases List.mem_cons.mp ha with rfl | ha'
            · rwa [hdvlu]
            · have := hrest_ge a ha'
              omega)
          exact hinv.hdisc v (List.mem_append_left _ hvstack)
        · have heq : e = du := by omega
          subst heq
          cases he2 : e with
          | zero =>
              rw [he2] at hdist
              have := isDist_zero_eq_src hdist
              subst this
              rw [hinv.hsrcdisc]
              simp
          | succ e2 =>
              rw [he2] at hdist
              obtain ⟨w', hw'n, hw'adj, hw'dist⟩ := isDist_succ_pred hdist
              have hw'stack := hinv.hcompl w' hw'n e2 hw'dist (fun a ha => by
                rcases List.mem_cons.mp ha with rfl | ha'
                · rw [hdvlu]
                  omega
                · have := hrest_ge a ha'
                  omega)
              exact hinv.hclosed w' hw'stack v hw'adj
      exact hvdisc hvnone
  have hcorrect2 : ∀ v d, dis (processNode adj info u).1 v = some d →
      IsDist adj n src v d := by
    intro v d hvd
    rw [hd2 v] at hvd
    by_cases hc : v ∈ adj u ∧ dis info v = none
    · rw [if_pos hc] at hvd
      have := hfresh_isdist v hc.1 hc.2
      rwa [← Option.some.inj hvd]
    · rw [if_neg hc] at hvd
      exact hinv.hcorrect v d hvd
  have hcover2 : ∀ v, v < n → dis (processNode adj info u).1 v ≠ none →
      v ∈ (info.stack ++ u :: rest) ++ (processNode adj info u).2 := by
    intro v hvn hvd
    by_cases hold : dis info v ≠ none
    · exact List.mem_append_left _ (hinv.hcover v hvn hold)
    · push_neg at hold
      by_cases hadj : v ∈ adj u
      · exact List.mem_append_right _ ((hmemQ v).mpr ⟨hadj, hold⟩)
      · rw [hd2 v, if_neg (fun hc => hadj hc.1)] at hvd
        exact absurd hold hvd
  have hclosed2 : ∀ w ∈ info.stack ++ [u], ∀ v ∈ adj w,
      dis (processNode adj info u).1 v ≠ none := by
    intro w hw v hv
    rcases List.mem_append.mp hw with h | h
    · have := hinv.hclosed w h v hv
      rw [hFd_old v this]
      exact this
    · rcases List.mem_cons.mp h with rfl | h'
      · by_cases hvnone : dis info v = none
        · rw [hd2 v, if_pos ⟨hv, hvnone⟩]
          exact Option.some_ne_none _
        · rw [hFd_old v hvnone]
          exact hvnone
      · cases h'
  have hsrcdisc2 : dis (processNode adj info u).1 src = some 0 := by
    rw [hFd_old src (by rw [hinv.hsrcdisc]; exact Option.some_ne_none _)]
    exact hinv.hsrcdisc
  have hlist : (processNode adj info u).1.stack ++ (rest ++ (processNode adj info u).2) =
      (info.stack ++ u :: rest) ++ (processNode adj info u).2 := by
    rw [hFstack]
    simp
  have hσu : info.sigma.getD u 0 = walks adj n src du u :=
    sigma_at_pop adj n src info u rest hinv du hdu hun
  refine ⟨hdlen2, hslen2, ?_, ?_, ?_, ?_, hcorrect2, ?_, ?_, ?_, ?_, ?_, ?_, hsrcdisc2⟩
  · -- hmem
    intro v hv
    rw [hlist] at hv
    rcases List.mem_append.mp hv with h | h
    · exact hinv.hmem v h
    · exact H2 u hun v ((hmemQ v).mp h).1
  · -- hdisc
    intro v hv
    rw [hlist] at hv
    rcases List.mem_append.mp hv with h | h
    · rw [hFd_old v (hinv.hdisc v h)]
      exact hinv.hdisc v h
    · rw [hQdis v h]
      exact Option.some_ne_none _
  · -- hnodup
    rw [hlist]
    apply List.Nodup.append hinv.hnodup
    · rw [hq2]
      exact (H3 u hun).filter _
    · intro a ha hb
      exact (hinv.hdisc a ha) ((hmemQ a).mp hb).2
  · -- hcover
    intro v hvn hvd
    rw [hlist]
    exact hcover2 v hvn hvd
  · -- horder
    rw [hlist]
    rw [List.pairwise_append]
    refine ⟨?_, ?_, ?_⟩
    · apply hinv.horder.imp_of_mem
      intro a b ha hb hle
      rw [hFdvl_old a (hinv.hdisc a ha), hFdvl_old b (hinv.hdisc b hb)]
      exact hle
    · apply List.pairwise_of_forall_mem_list
      intro a ha b hb
      rw [hQdvl a ha, hQdvl b hb]
    · intro a ha b hb
      rw [hFdvl_old a (hinv.hdisc a ha), hQdvl b hb]
      exact hold_le a ha
  · -- hwidth
    intro a ha b hb
    have hbound : ∀ x ∈ rest ++ (processNode adj info u).2,
        du ≤ dvl (processNode adj info u).1 x ∧
        dvl (processNode adj info u).1 x ≤ du + 1 := by
      intro x hx
      rcases List.mem_append.mp hx with h | h
      · have hnd := hinv.hdisc x (List.mem_append_right _ (List.mem_cons_of_mem _ h))
        rw [hFdvl_old x hnd]
        exact ⟨hrest_ge x h, hrest_le x h⟩
      · rw [hQdvl x h]
        omega
    have h1 := hbound a ha
    have h2 := hbound b hb
    omega
  · -- hclosed
    intro w hw v hv
    rw [hFstack] at hw
    exact hclosed2 w hw v hv
  · -- hcompl
    have hcompl2 : ∀ d w, w < n → IsDist adj n src w d →
        (∀ a ∈ rest ++ (processNode adj info u).2,
          d < dvl (processNode adj info u).1 a) →
        w ∈ info.stack ++ [u] := by
      intro d
      induction d using Nat.strong_induction_on with
      | _ d IH =>
        intro w hwn hwd hpre
        rcases Nat.lt_or_ge d du with hlt | hge
        · refine List.mem_append_left _ (hinv.hcompl w hwn d hwd ?_)
          intro a ha
          rcases List.mem_cons.mp ha with rfl | ha'
          · rwa [hdvlu]
          · have := hrest_ge a ha'
            omega
        · have hdiscw : dis (processNode adj info u).1 w ≠ none := by
            cases hd0 : d with
            | zero =>
                rw [hd0] at hwd
                have := isDist_zero_eq_src hwd
                subst this
                rw [hsrcdisc2]
                exact Option.some_ne_none _
            | succ e =>
                rw [hd0] at hwd
                obtain ⟨w', hw'n, hw'adj, hw'dist⟩ := isDist_succ_pred hwd
                have hw'in : w' ∈ info.stack ++ [u] :=
                  IH e (by omega) w' hw'n hw'dist (fun a ha => by
                    have := hpre a ha
                    omega)
                exact hclosed2 w' hw'in w hw'adj
          have hwcov := hcover2 w hwn hdiscw
          rcases List.mem_append.mp hwcov with h | h
          · rcases List.mem_append.mp h with h2 | h2
            · exact List.mem_append_left _ h2
            · rcases List.mem_cons.mp h2 with rfl | h3
              · exact List.mem_append_right _ (List.mem_cons_self _ _)
              · exfalso
                have hprew := hpre w (List.mem_append_left _ h3)
                have hnd := hinv.hdisc w
                  (List.mem_append_right _ (List.mem_cons_of_mem _ h3))
                rw [hFdvl_old w hnd] at hprew
                obtain ⟨d2, hd2'⟩ : ∃ d2, dis info w = some d2 := by
                  cases hx : dis info w with
                  | none => exact absurd hx hnd
                  | some y => exact ⟨y, rfl⟩
                have : d2 = d := isDist_unique (hinv.hcorrect w d2 hd2') hwd
                have hdvlw : dvl info w = d2 := by
                  show (dis info w).getD 0 = d2
                  rw [hd2']
                  rfl
                omega
          · exfalso
            have hprew := hpre w (List.mem_append_right _ h)
            rw [hQdvl w h] at hprew
            have hIsw : IsDist adj n src w (du + 1) :=
              hcorrect2 w (du + 1) (hQdis w h)
            have := isDist_unique hIsw hwd
            omega
    intro w hwn d hwd hpre
    rw [hFstack]
    exact hcompl2 d w hwn hwd hpre
  · -- hsigma
    intro v d' hvn hvd
    rw [hs2 v, hFstack, List.filter_append, List.map_append, List.sum_append]
    have hstack_filter : info.stack.filter (fun w => decide (v ∈ adj w) &&
        ((dis (processNode adj info u).1 w).map (· + 1) == some d')) =
        info.stack.filter (fun w => decide (v ∈ adj w) &&
        ((dis info w).map (· + 1) == some d')) := by
      apply List.filter_congr
      intro w hw
      rw [hFd_old w (hinv.hdisc w (List.mem_append_left _ hw))]
    rw [hstack_filter]
    by_cases hcase : v ∈ adj u ∧ (dis info v = none ∨ dis info v = some (du + 1))
    · -- v is a neighbor of u at the new frontier distance
      have hd'eq : d' = du + 1 := by
        rcases hcase.2 with hnone | hsome
        · rw [hd2 v, if_pos ⟨hcase.1, hnone⟩] at hvd
          exact (Option.some.inj hvd).symm
        · rw [hFd_old v (by rw [hsome]; exact Option.some_ne_none _), hsome] at hvd
          exact (Option.some.inj hvd).symm
      subst hd'eq
      have huterm : [u].filter (fun w => decide (v ∈ adj w) &&
          ((dis (processNode adj info u).1 w).map (· + 1) == some (du + 1))) = [u] := by
        rw [List.filter_cons_of_pos (by
          rw [hFd_old u hdu_ne, hdu]
          simp [hcase.1])]
        rfl
      rw [huterm, if_pos hcase]
      rcases hcase.2 with hnone | hsome
      · -- freshly discovered: old sum is empty
        have hvnsrc : v ≠ src := by
          intro h
          rw [h, hinv.hsrcdisc] at hnone
          cases hnone
        have hempty : info.stack.filter (fun w => decide (v ∈ adj w) &&
            ((dis info w).map (· + 1) == some (du + 1))) = [] := by
          apply List.filter_eq_nil_iff.mpr
          intro w hw
          have : v ∉ adj w := fun hmem => (hinv.hclosed w hw v hmem) hnone
          simp [this]
        rw [hempty, hinv.hsigma0 v hvn hnone, if_neg hvnsrc]
        simp only [List.map_cons, List.map_nil, List.sum_cons, List.sum_nil]
        rw [hσu]
        have : du + 1 - 1 = du := rfl
        rw [this]
        omega
      · -- previously discovered at du+1: one more predecessor term
        have hold := hinv.hsigma v (du + 1) hvn hsome
        rw [hold]
        simp only [List.map_cons, List.map_nil, List.sum_cons, List.sum_nil]
        rw [hσu]
        have : du + 1 - 1 = du := rfl
        rw [this]
        omega
    · -- u contributes nothing to v
      have hvd' : dis info v = some d' := by
        rw [hd2 v] at hvd
        by_cases hc : v ∈ adj u ∧ dis info v = none
        · exact absurd ⟨hc.1, Or.inl hc.2⟩ hcase
        · rwa [if_neg hc] at hvd
      have huterm : [u].filter (fun w => decide (v ∈ adj w) &&
          ((dis (processNode adj info u).1 w).map (· + 1) == some d')) = [] := by
        rw [List.filter_cons_of_neg (by
          rw [hFd_old u hdu_ne, hdu]
          by_cases hadj : v ∈ adj u
          · have hne : ¬ d' = du + 1 := by
              intro h
              exact hcase ⟨hadj, Or.inr (by rwa [h] at hvd')⟩
            simp only [Option.map_some', beq_iff_eq, Bool.and_eq_true, decide_eq_true_eq]
            intro hcontra
            exact hne (Option.some.inj hcontra.2).symm
          · simp [hadj])]
        rfl
      rw [huterm, if_neg hcase, hinv.hsigma v d' hvn hvd']
      simp
  · -- hsigma0
    intro v hvn hvd
    have hvnone : dis info v = none := by
      by_contra h
      rw [hFd_old v h] at hvd
      exact h hvd
    have hvnadj : v ∉ adj u := by
      intro h
      rw [hd2 v, if_pos ⟨h, hvnone⟩] at hvd
      cases hvd
    rw [hs2 v, if_neg (fun hc => hvnadj hc.1), hinv.hsigma0 v hvn hvnone]


/-- The starting state of `bfs` (distance 0 and σ = 1 at the source,
everything else unset), named so the loop invariant can be stated about it. -/
def bfsInit (n src : Nat) : BFSInfo :=
  { parent := List.replicate n (-1)
    distance := (List.replicate n (none : Option Nat)).set src (some 0)
    src := src
    n := n
    sigma := (List.replicate n 0).set src 1
    pred := List.replicate n []
    stack := [] }

lemma getD_replicate_none (n v : Nat) :
    (List.replicate n (none : Option Nat)).getD v none = none := by
  simp only [List.getD, List.get?_eq_getElem?, List.getElem?_replicate]
  split_ifs <;> rfl

lemma getD_replicate_zero (n v : Nat) :
    (List.replicate n (0 : Nat)).getD v 0 = 0 := by
  simp only [List.getD, List.get?_eq_getElem?, List.getElem?_replicate]
  split_ifs <;> rfl

lemma bfsInit_dis (n src : Nat) (hsrc : src < n) (v : Nat) :
    dis (bfsInit n src) v = if src = v then some 0 else none := by
  show ((List.replicate n (none : Option Nat)).set src (some 0)).getD v none = _
  rw [getD_set]
  by_cases h : src = v
  · rw [if_pos ⟨h, by simp [hsrc]⟩, if_pos h]
  · rw [if_neg (fun hc => h hc.1), if_neg h, getD_replicate_none]

lemma bfsInit_sigma (n src : Nat) (hsrc : src < n) (v : Nat) :
    (bfsInit n src).sigma.getD v 0 = if src = v then 1 else 0 := by
  show ((List.replicate n (0 : Nat)).set src 1).getD v 0 = _
  rw [getD_set]
  by_cases h : src = v
  · rw [if_pos ⟨h, by simp [hsrc]⟩, if_pos h]
  · rw [if_neg (fun hc => h hc.1), if_neg h, getD_replicate_zero]

lemma bfs_init_inv (adj : Nat → List Nat) (n src : Nat) (hsrc : src < n) :
    BFSInv adj n src (bfsInit n src) [src] := by
  have hstack : (bfsInit n src).stack = [] := rfl
  refine ⟨by simp [bfsInit], by simp [bfsInit], ?_, ?_, ?_, ?_, ?_, ?_, ?_, ?_, ?_, ?_,
    ?_, ?_⟩
  · intro v hv
    rw [hstack] at hv
    rcases List.mem_singleton.mp (by simpa using hv) with rfl
    exact hsrc
  · intro v hv
    rw [hstack] at hv
    have hveq : v = src := List.mem_singleton.mp (by simpa using hv)
    rw [hveq, bfsInit_dis n src hsrc, if_pos rfl]
    exact Option.some_ne_none _
  · rw [hstack]
    simp
  · intro v hvn hvd
    rw [bfsInit_dis n src hsrc] at hvd
    have : src = v := by
      by_contra h
      rw [if_neg h] at hvd
      exact hvd rfl
    rw [hstack, this]
    simp
  · intro v d hvd
    rw [bfsInit_dis n src hsrc] at hvd
    by_cases h : src = v
    · rw [if_pos h] at hvd
      have hd : d = 0 := (Option.some.inj hvd).symm
      subst hd
      rw [← h]
      exact isDist_src adj n src
    · rw [if_neg h] at hvd
      cases hvd
  · rw [hstack]
    simp
  · intro a ha b hb
    have hae : a = b := (List.mem_singleton.mp ha).trans (List.mem_singleton.mp hb).symm
    rw [hae]
    omega
  · intro w hw
    rw [hstack] at hw
    cases hw
  · intro w hwn d hwd hpre
    exfalso
    have hlt := hpre src (List.mem_singleton.mpr rfl)
    have hdvl : dvl (bfsInit n src) src = 0 := by
      show (dis (bfsInit n src) src).getD 0 = 0
      rw [bfsInit_dis n src hsrc, if_pos rfl]
      rfl
    omega
  · intro v d' hvn hvd
    rw [bfsInit_dis n src hsrc] at hvd
    by_cases h : src = v
    · rw [if_pos h] at hvd
      have hd'0 : d' = 0 := (Option.some.inj hvd).symm
      subst hd'0
      rw [bfsInit_sigma n src hsrc, if_pos h, if_pos h.symm, hstack]
      rfl
    · rw [if_neg h] at hvd
      cases hvd
  · intro v hvn hvd
    rw [bfsInit_dis n src hsrc] at hvd
    by_cases h : src = v
    · rw [if_pos h] at hvd
      cases hvd
    · rw [bfsInit_sigma n src hsrc, if_neg h]
  · rw [bfsInit_dis n src hsrc, if_pos rfl]

lemma bfsLoop_inv (adj : Nat → List Nat) (n src : Nat)
    (H2 : ∀ u, u < n → ∀ v ∈ adj u, v < n)
    (H3 : ∀ u, u < n → (adj u).Nodup) :
    ∀ (info : BFSInfo) (queue : List Nat), BFSInv adj n src info queue →
      BFSInv adj n src (bfsLoop adj info queue) [] := by
  intro info queue
  induction info, queue using bfsLoop.induct adj with
  | case1 info =>
      intro h
      rw [bfsLoop]
      exact h
  | case2 info u rest ih =>
      intro h
      rw [bfsLoop]
      exact ih (processNode_preserves adj n src H2 H3 info u rest h)

lemma sigma_final (adj : Nat → List Nat) (n src : Nat) (info : BFSInfo)
    (hinv : BFSInv adj n src info [])
    (v dv : Nat) (hdv : dis info v = some dv) (hvn : v < n) :
    info.sigma.getD v 0 = walks adj n src dv v := by
  have hIs : IsDist adj n src v dv := hinv.hcorrect v dv hdv
  have hσ := hinv.hsigma v dv hvn hdv
  cases dv with
  | zero =>
      have hvsrc : v = src := isDist_zero_eq_src hIs
      have hnil : info.stack.filter (fun w => decide (v ∈ adj w) &&
          ((dis info w).map (· + 1) == some 0)) = [] := by
        apply List.filter_eq_nil_iff.mpr
        intro w _
        cases h : dis info w with
        | none => simp [h]
        | some x => simp [h]
      rw [hσ, hnil, if_pos hvsrc]
      subst hvsrc
      simp [walks]
  | succ e =>
      have hvne : v ≠ src := by
        intro h
        have h0 : IsDist adj n src v 0 := by rw [h]; exact isDist_src adj n src
        have := isDist_unique hIs h0
        omega
      have hsum := @sigma_sum_eq_walks adj n src
        info.stack (dis info) v e hIs
        (hinv.hnodup.of_append_left)
        (fun w hw => hinv.hmem w (List.mem_append_left _ hw))
        (fun w d h => hinv.hcorrect w d h)
        (fun w hwn hwd => by
          have hwstack : w ∈ info.stack :=
            hinv.hcompl w hwn e hwd (fun a ha => absurd ha (List.not_mem_nil a))
          refine ⟨hwstack, ?_⟩
          have hdw : dis info w ≠ none :=
            hinv.hdisc w (List.mem_append_left _ hwstack)
          cases hd2 : dis info w with
          | none => exact absurd hd2 hdw
          | some d2 =>
              have := isDist_unique (hinv.hcorrect w d2 hd2) hwd
              rw [this])
      rw [hσ, if_neg hvne, filter_pred_shift]
      show 0 + _ = _
      rw [Nat.zero_add]
      have he : e + 1 - 1 = e := rfl
      rw [he, hsum]

/-- **C2.** After `bfs` returns on a graph with source `src` (spec §4.7,
`bfs`/`BFSInfo` in graph.h): for every node `v` whose distance entry is set
(`distance[v] ≥ 0`, i.e. `dis … v = some d`), that entry is the true
shortest-walk distance from `src` and `sigma[v]` equals the number of shortest
`src → v` paths in the live subgraph (`walks adj n src d v`); the stack lists
exactly the discovered nodes (those with a set distance) in non-decreasing
order of distance from `src`. -/
theorem claim_c2_bfs (adj : Nat → List Nat) (n src : Nat)
    (hsrc : src < n)
    (hadj : ∀ u, u < n → ∀ v ∈ adj u, v < n)
    (hnodup : ∀ u, u < n → (adj u).Nodup) :
    (∀ v d, dis (bfs adj n src) v = some d →
      IsDist adj n src v d ∧
      (bfs adj n src).sigma.getD v 0 = walks adj n src d v) ∧
    ((bfs adj n src).stack.Pairwise
      (fun a b => dvl (bfs adj n src) a ≤ dvl (bfs adj n src) b)) ∧
    (∀ v, v < n → (v ∈ (bfs adj n src).stack ↔ dis (bfs adj n src) v ≠ none)) := by
  have hinv : BFSInv adj n src (bfs adj n src) [] :=
    bfsLoop_inv adj n src hadj hnodup (bfsInit n src) [src] (bfs_init_inv adj n src hsrc)
  refine ⟨?_, ?_, ?_⟩
  · intro v d hvd
    have hvn : v < n := by
      by_contra hb
      have hlen : (bfs adj n src).distance.length ≤ v := by
        rw [hinv.hdlen]
        omega
      have hnone : dis (bfs adj n src) v = none := by
        show (bfs adj n src).distance.getD v none = none
        exact List.getD_eq_default _ _ hlen
      rw [hnone] at hvd
      cases hvd
    exact ⟨hinv.hcorrect v d hvd,
      sigma_final adj n src (bfs adj n src) hinv v d hvd hvn⟩
  · have h := hinv.horder
    rwa [List.append_nil] at h
  · intro v hvn
    constructor
    · intro hv
      exact hinv.hdisc v (List.mem_append_left _ hv)
    · intro hv
      have h := hinv.hcover v hvn hv
      rwa [List.append_nil] at h

/-- A concrete two-node path graph used to instantiate `claim_c2_bfs`. -/
def c2adj : Nat → List Nat := fun u => if u = 0 then [1] else if u = 1 then [0] else []

theorem claim_c2_bfs_witness :
    ((0 : Nat) < 2 ∧ (∀ u, u < 2 → ∀ v ∈ c2adj u, v < 2) ∧
      (∀ u, u < 2 → (c2adj u).Nodup)) ∧
    ((∀ v d, dis (bfs c2adj 2 0) v = some d →
        IsDist c2adj 2 0 v d ∧
        (bfs c2adj 2 0).sigma.getD v 0 = walks c2adj 2 0 d v) ∧
      ((bfs c2adj 2 0).stack.Pairwise
        (fun a b => dvl (bfs c2adj 2 0) a ≤ dvl (bfs c2adj 2 0) b)) ∧
      (∀ v, v < 2 → (v ∈ (bfs c2adj 2 0).stack ↔ dis (bfs c2adj 2 0) v ≠ none))) :=
  ⟨⟨by decide, by decide, by decide⟩,
    claim_c2_bfs c2adj 2 0 (by decide) (by decide) (by decide)⟩
